import Mathlib

/-
Verification of the retrieval core of the astrbot_plugin_limbuswiki repository.

The development shallowly embeds the three core modules:
  * `src/core/searcher.py`  (class `Searcher`): tokenization, alias rewriting,
    query-tag extraction, BM25 index statistics, lexical scoring, sorting and
    truncation, and the optional embedding/rerank async pipeline;
  * `src/core/chunker.py`   (class `Chunker`): visual-size counting, section and
    paragraph/sentence splitting, and the overlap pass;
  * `src/core/tagger.py`    (class `Tagger`): keyword tagging and entity
    extraction.

Text is modelled as `List Char`; Python floats are modelled as real numbers
(`math.log` becomes `Real.log`).  Python's `str.lower` is modelled by ASCII
case folding (`Char.toLower`); the repository's data is ASCII plus CJK text,
on which the two agree.  Python's whitespace notion (used by `str.strip`,
`str.split` and the regex class `\s`) is modelled by `isPySpace`, which covers
the ASCII whitespace characters plus the no-break and ideographic spaces.
-/

/-! ## Character classes (searcher.py lines 32-35) -/

/-- Characters matched by `ENGLISH_PATTERN = re.compile(r'[a-zA-Z0-9]+')`. -/
def isWordChar (c : Char) : Bool :=
  ('a' ≤ c && c ≤ 'z') || ('A' ≤ c && c ≤ 'Z') || ('0' ≤ c && c ≤ '9')

/-- Whitespace as Python's `str.strip` / regex `\s` see it (ASCII whitespace
plus the no-break space and the ideographic space). -/
def isPySpace (c : Char) : Bool :=
  c == ' ' || c == '\t' || c == '\n' || c == '\x0d' ||
  c == '\x0b' || c == '\x0c' || c == ' ' || c == '　'

/-- The punctuation and bracket characters listed in `NON_CHINESE_PATTERN`
(searcher.py line 33). -/
def removedPunct : List Char :=
  ['[', ']', '【', '】', '《', '》', '（', '）', '(', ')', '.', ',', '，',
   '。', '！', '!', '？', '?', '；', ';', '：', ':', '"', '\'']

/-- A character matched by the class of
`NON_CHINESE_PATTERN = re.compile(r'[a-zA-Z0-9\s...punctuation...]+')`. -/
def isRemoved (c : Char) : Bool :=
  isWordChar c || isPySpace c || removedPunct.contains c

/-- Python `text.lower()`, restricted to ASCII case folding. -/
def pyLower (l : List Char) : List Char := l.map Char.toLower

/-! ## Tokenization (searcher.py `_tokenize`, lines 88-112) -/

/-- Scanner for `re.findall(r'[a-zA-Z0-9]+', text)`: collects maximal runs of
word characters.  `cur` is the current run, reversed. -/
def wordRunsAux (cur : List Char) : List Char → List (List Char)
  | [] => if cur.isEmpty then [] else [cur.reverse]
  | c :: rest =>
    if isWordChar c then wordRunsAux (c :: cur) rest
    else if cur.isEmpty then wordRunsAux [] rest
    else cur.reverse :: wordRunsAux [] rest

/-- `re.findall(r'[a-zA-Z0-9]+', text)`. -/
def wordRuns (l : List Char) : List (List Char) := wordRunsAux [] l

/-- `NON_CHINESE_PATTERN.sub(' ', text)`: each maximal run of removed
characters is replaced by a single space.  `inRun` records whether the
previous character belonged to a run being replaced. -/
def subNonChineseAux (inRun : Bool) : List Char → List Char
  | [] => []
  | c :: rest =>
    if isRemoved c then
      if inRun then subNonChineseAux true rest
      else ' ' :: subNonChineseAux true rest
    else c :: subNonChineseAux false rest

/-- `chinese_text = NON_CHINESE_PATTERN.sub(' ', text)` (searcher.py line 101). -/
def subNonChinese (l : List Char) : List Char := subNonChineseAux false l

/-- `chinese_chars = [c for c in chinese_text if c.strip()]` (line 102). -/
def chineseChars (l : List Char) : List Char :=
  (subNonChinese l).filter (fun c => !(isPySpace c))

/-- The bigram loop of `_tokenize` (searcher.py lines 108-110). -/
def bigrams : List Char → List (List Char)
  | [] => []
  | [_] => []
  | a :: b :: rest => [a, b] :: bigrams (b :: rest)

/-- `Searcher._tokenize` (searcher.py lines 88-112): lowercase, extract word
tokens, then CJK unigrams and bigrams, concatenated in that order. -/
def tokenizeL (l : List Char) : List (List Char) :=
  wordRuns (pyLower l) ++ (chineseChars (pyLower l)).map (fun c => [c]) ++
    bigrams (chineseChars (pyLower l))

/-- `Searcher._tokenize` on a string. -/
def tokenize (s : String) : List (List Char) := tokenizeL s.toList

/-! ## Claim C2: spec-side tokenizer

Definitions written from the words of the claim: lowercase the text; emit every
maximal run of Latin letters/digits as a whole-word token; strip every
character of the removed classes (letters, digits, punctuation, whitespace,
brackets) to obtain the residue; emit each residue character as a unigram and
each adjacent pair as a bigram; concatenate word tokens, unigrams, bigrams. -/

/-- Spec-side maximal runs of word characters, phrased with
`takeWhile`/`dropWhile`: at each word character, the whole maximal run is one
token and scanning resumes after it. -/
def specWords : List Char → List (List Char)
  | [] => []
  | c :: rest =>
    if isWordChar c then
      (c :: rest.takeWhile isWordChar) :: specWords (rest.dropWhile isWordChar)
    else specWords rest
termination_by l => l.length
decreasing_by
  · exact Nat.lt_succ_of_le (List.dropWhile_sublist _).length_le
  · simp

/-- Spec-side residue: the characters that survive stripping of the removed
classes, in order. -/
def specResidue (l : List Char) : List Char :=
  (pyLower l).filter (fun c => !(isRemoved c))

/-- Spec-side token stream of claim C2. -/
def specTokenize (l : List Char) : List (List Char) :=
  specWords (pyLower l) ++ (specResidue l).map (fun c => [c]) ++ bigrams (specResidue l)

/-! ## Chunks (the dict records consumed by `Searcher`) -/

/-- A chunk record as consumed by `Searcher`: `content`, `tags`, `scope` and
`group_id` (absent keys modelled by `none` / `[]`, matching the
`chunk.get(...)` defaults in searcher.py). -/
structure Chunk where
  content : String
  tags : List String
  scope : Option String
  groupId : Option String
deriving DecidableEq, Repr

/-! ## Alias substitution (searcher.py `_apply_aliases`, lines 141-150) -/

/-- Case-insensitive prefix test (`re.IGNORECASE` on a `re.escape`d literal). -/
def isPreCI : List Char → List Char → Bool
  | [], _ => true
  | _ :: _, [] => false
  | p :: ps, t :: ts => (p.toLower == t.toLower) && isPreCI ps ts

/-- One `pattern.sub(canonical, result)` pass for a non-empty literal alias:
left-to-right, non-overlapping, case-insensitive.  The fuel argument is the
text length; every step consumes at least one character. -/
def replaceCIFuel (pat canon : List Char) : ℕ → List Char → List Char
  | _, [] => []
  | 0, l => l
  | fuel + 1, c :: rest =>
    if isPreCI pat (c :: rest) then
      canon ++ replaceCIFuel pat canon fuel ((c :: rest).drop pat.length)
    else c :: replaceCIFuel pat canon fuel rest

def replaceCI (pat canon l : List Char) : List Char := replaceCIFuel pat canon l.length l

/-- `re.sub` with an empty pattern inserts the replacement at every position
(Python semantics for the degenerate empty alias key). -/
def interleaveCanon (canon : List Char) : List Char → List Char
  | [] => canon
  | c :: rest => canon ++ c :: interleaveCanon canon rest

/-- `Searcher._apply_aliases`: lowercase the query, then for every
alias → canonical pair (in mapping order) replace case-insensitive literal
occurrences of the alias by the canonical term. -/
def applyAliases (am : List (String × String)) (q : String) : List Char :=
  am.foldl
    (fun txt p =>
      if p.1.toList = [] then interleaveCanon p.2.toList txt
      else replaceCI p.1.toList p.2.toList txt)
    (pyLower q.toList)

/-! ## Query tag extraction (searcher.py `_extract_query_tags`, lines 152-201) -/

/-- Exact prefix test on character lists. -/
def isPreB : List Char → List Char → Bool
  | [], _ => true
  | _ :: _, [] => false
  | p :: ps, t :: ts => (p == t) && isPreB ps ts

/-- Python's substring containment `pat in text`. -/
def hasSub (pat : List Char) : List Char → Bool
  | [] => pat.isEmpty
  | l@(_ :: rest) => isPreB pat l || hasSub pat rest

/-- `kw in query_lower` for a keyword literal. -/
def hasKw (ql : List Char) (kw : String) : Bool := hasSub kw.toList ql

/-- `Searcher._extract_query_tags`: the set of candidate tags extracted from
the processed query, modelled as a duplicate-free list (Python builds a
`set`; only membership and cardinality of intersections are ever used). -/
def extractQueryTags (pq : List Char) : List String :=
  (if hasKw (pyLower pq) "burn" || hasKw (pyLower pq) "燃烧" || hasKw (pyLower pq) "烧伤"
    then ["状态:Burn"] else []) ++
  (if hasKw (pyLower pq) "bleed" || hasKw (pyLower pq) "流血" || hasKw (pyLower pq) "出血"
    then ["状态:Bleed"] else []) ++
  (if hasKw (pyLower pq) "tremor" || hasKw (pyLower pq) "震颤" then ["状态:Tremor"] else []) ++
  (if hasKw (pyLower pq) "rupture" || hasKw (pyLower pq) "破裂" then ["状态:Rupture"] else []) ++
  (if hasKw (pyLower pq) "sinking" || hasKw (pyLower pq) "沉沦" then ["状态:Sinking"] else []) ++
  (if hasKw (pyLower pq) "poise" || hasKw (pyLower pq) "蓄力" || hasKw (pyLower pq) "架势"
    then ["状态:Poise"] else []) ++
  (if hasKw (pyLower pq) "主线" || hasKw (pyLower pq) "章节" then ["主线"] else []) ++
  (if hasKw (pyLower pq) "镜牢" || hasKw (pyLower pq) "md" || hasKw (pyLower pq) "镜像"
    then ["镜牢"] else []) ++
  (if hasKw (pyLower pq) "铁道" || hasKw (pyLower pq) "rr" then ["铁道"] else []) ++
  (if hasKw (pyLower pq) "活动" then ["活动"] else []) ++
  (if hasKw (pyLower pq) "拼点" || hasKw (pyLower pq) "clash" || hasKw (pyLower pq) "硬币" ||
      hasKw (pyLower pq) "速度" then ["拼点/冲突"] else []) ++
  (if hasKw (pyLower pq) "ego" || hasKw (pyLower pq) "侵蚀" then ["EGO", "EGO机制"] else []) ++
  (if hasKw (pyLower pq) "配队" || hasKw (pyLower pq) "阵容" || hasKw (pyLower pq) "队伍"
    then ["配队/阵容"] else []) ++
  (if hasKw (pyLower pq) "人格" || hasKw (pyLower pq) "identity" || hasKw (pyLower pq) "id"
    then ["人格"] else [])

/-! ## BM25 index statistics (searcher.py `_build_index`, lines 114-139) -/

/-- Tokens of one chunk's content. -/
def chunkTokens (c : Chunk) : List (List Char) := tokenize c.content

/-- `doc_lens[i]` — total token count of document `i`. -/
def docLen (c : Chunk) : ℕ := (chunkTokens c).length

/-- `term_freqs[i][t]` with default 0. -/
def termFreq (c : Chunk) (t : List Char) : ℕ := (chunkTokens c).count t

/-- `doc_freq[t]` — number of documents containing `t` at least once. -/
def docFreq (chunks : List Chunk) (t : List Char) : ℕ :=
  chunks.countP (fun c => decide (t ∈ chunkTokens c))

/-- `sum(self.doc_lens)`. -/
def totalLen (chunks : List Chunk) : ℕ := (chunks.map docLen).sum

/-- `avg_doc_len` — mean token count, 0 for the empty corpus. -/
noncomputable def avgDocLen (chunks : List Chunk) : ℝ :=
  if chunks = [] then 0 else (totalLen chunks : ℝ) / (chunks.length : ℝ)

/-! ## Lexical scoring (searcher.py `_calculate_bm25_score` and `search`) -/

/-- `K1 = 1.5` (searcher.py line 23). -/
noncomputable def bmK1 : ℝ := 1.5

/-- `B = 0.75` (searcher.py line 24). -/
noncomputable def bmB : ℝ := 0.75

/-- The `idf` computed at searcher.py line 216. -/
noncomputable def idf (chunks : List Chunk) (t : List Char) : ℝ :=
  Real.log (((chunks.length : ℝ) - (docFreq chunks t : ℝ) + 0.5) /
    ((docFreq chunks t : ℝ) + 0.5) + 1)

/-- Denominator of the `tf_norm` expression at searcher.py lines 220-222. -/
noncomputable def tfNormDenom (chunks : List Chunk) (c : Chunk) (t : List Char) : ℝ :=
  (termFreq c t : ℝ) + bmK1 * (1 - bmB + bmB * (docLen c : ℝ) / avgDocLen chunks)

/-- `tf_norm` (searcher.py lines 220-222). -/
noncomputable def tfNorm (chunks : List Chunk) (c : Chunk) (t : List Char) : ℝ :=
  (termFreq c t : ℝ) * (bmK1 + 1) / tfNormDenom chunks c t

/-- `Searcher._calculate_bm25_score`: terms absent from `doc_freq` are
skipped, the others contribute `idf * tf_norm`. -/
noncomputable def bm25Score (chunks : List Chunk) (qTokens : List (List Char)) (c : Chunk) : ℝ :=
  (qTokens.map (fun t =>
    if docFreq chunks t = 0 then 0 else idf chunks t * tfNorm chunks c t)).sum

/-- Tag boost of `search` (searcher.py lines 264-268): 1.5 per matching tag,
0 when the intersection is empty. -/
noncomputable def tagScore (qTags : List String) (c : Chunk) : ℝ :=
  if qTags.filter (fun t => decide (t ∈ c.tags)) = [] then 0
  else ((qTags.filter (fun t => decide (t ∈ c.tags))).length : ℝ) * 1.5

/-- Group boost of `search` (searcher.py lines 270-273); `if group_id`
is Python truthiness, so an empty-string group id never boosts. -/
noncomputable def groupScore (gid : Option String) (c : Chunk) : ℝ :=
  match gid with
  | none => 0
  | some g =>
    if g ≠ "" ∧ c.scope = some "group" ∧ c.groupId = some g then 1.2 else 0

/-- `total_score` (searcher.py line 275). -/
noncomputable def totalScore (chunks : List Chunk) (qTokens : List (List Char))
    (qTags : List String) (gid : Option String) (c : Chunk) : ℝ :=
  bm25Score chunks qTokens c + tagScore qTags c + groupScore gid c

/-- A search result: the chunk, the total score attached by `search`, and the
chunk's original position in the collection (used for the ordering claims). -/
structure Scored where
  idx : ℕ
  chunk : Chunk
  score : ℝ

/-- The scoring loop of `search` (lines 259-286): every chunk with positive
total score enters the candidate list, in collection order. -/
noncomputable def scoreAllAux (chunks : List Chunk) (qTokens : List (List Char))
    (qTags : List String) (gid : Option String) : ℕ → List Chunk → List Scored
  | _, [] => []
  | i, c :: rest =>
    (if 0 < totalScore chunks qTokens qTags gid c then
      [⟨i, c, totalScore chunks qTokens qTags gid c⟩] else []) ++
    scoreAllAux chunks qTokens qTags gid (i + 1) rest

noncomputable def scoreAll (chunks : List Chunk) (qTokens : List (List Char))
    (qTags : List String) (gid : Option String) : List Scored :=
  scoreAllAux chunks qTokens qTags gid 0 chunks

/-- Stable descending insertion: the new element goes after every element with
a greater-or-equal score.  Folding this over a list reproduces Python's
stable `list.sort(key=score, reverse=True)`. -/
noncomputable def insertDesc (x : Scored) : List Scored → List Scored
  | [] => [x]
  | y :: ys => if y.score < x.score then x :: y :: ys else y :: insertDesc x ys

/-- `scored_chunks.sort(key=lambda x: x['score'], reverse=True)` — stable
descending sort. -/
noncomputable def sortDesc (l : List Scored) : List Scored :=
  l.foldl (fun acc x => insertDesc x acc) []

/-- `Searcher.search` (searcher.py lines 228-291). -/
noncomputable def search (chunks : List Chunk) (am : List (String × String))
    (q : String) (k : ℕ) (gid : Option String) : List Scored :=
  if chunks = [] then []
  else if tokenizeL (applyAliases am q) = [] then []
  else
    (sortDesc (scoreAll chunks (tokenizeL (applyAliases am q))
      (extractQueryTags (applyAliases am q)) gid)).take k

/-! ## Claim C1: spec-side scoring formulas, written from the claim's text -/

/-- Spec-side `idf = ln((N - df + 0.5)/(df + 0.5) + 1)`. -/
noncomputable def specIdf (chunks : List Chunk) (t : List Char) : ℝ :=
  Real.log (((chunks.length : ℝ) - (docFreq chunks t : ℝ) + 0.5) /
    ((docFreq chunks t : ℝ) + 0.5) + 1)

/-- Spec-side `tf_norm = tf*(k1+1) / (tf + k1*(1 - b + b*doc_len/avg_doc_len))`
with `k1 = 1.5` and `b = 0.75` as literals. -/
noncomputable def specTfNorm (chunks : List Chunk) (c : Chunk) (t : List Char) : ℝ :=
  (termFreq c t : ℝ) * (1.5 + 1) /
    ((termFreq c t : ℝ) + 1.5 * (1 - 0.75 + 0.75 * (docLen c : ℝ) / avgDocLen chunks))

/-- Spec-side BM25: tokens present in `doc_freq` contribute `idf * tf_norm`,
absent tokens contribute 0. -/
noncomputable def specBM25 (chunks : List Chunk) (qTokens : List (List Char)) (c : Chunk) : ℝ :=
  (qTokens.map (fun t =>
    if 0 < docFreq chunks t then specIdf chunks t * specTfNorm chunks c t else 0)).sum

/-- Spec-side tag boost: 1.5 per tag in the intersection of query tags and
chunk tags. -/
noncomputable def specTagBoost (qTags : List String) (c : Chunk) : ℝ :=
  1.5 * ((qTags.filter (fun t => decide (t ∈ c.tags))).length : ℝ)

/-- Spec-side scope boost: exactly 1.2 when a group id is supplied and the
chunk is group-scoped with the matching group id. -/
noncomputable def specScopeBoost (gid : Option String) (c : Chunk) : ℝ :=
  if gid.isSome ∧ c.scope = some "group" ∧ c.groupId = gid then 1.2 else 0

/-- Spec-side total score. -/
noncomputable def specTotal (chunks : List Chunk) (qTokens : List (List Char))
    (qTags : List String) (gid : Option String) (c : Chunk) : ℝ :=
  specBM25 chunks qTokens c + specTagBoost qTags c + specScopeBoost gid c

/-- Spec-side candidate list: chunks with positive total, in collection
order (chunks with total ≤ 0 are excluded). -/
noncomputable def specScoreAllAux (chunks : List Chunk) (qTokens : List (List Char))
    (qTags : List String) (gid : Option String) : ℕ → List Chunk → List Scored
  | _, [] => []
  | i, c :: rest =>
    (if 0 < specTotal chunks qTokens qTags gid c then
      [⟨i, c, specTotal chunks qTokens qTags gid c⟩] else []) ++
    specScoreAllAux chunks qTokens qTags gid (i + 1) rest

/-- Spec-side search: score, exclude nonpositive totals, sort descending
(stable), truncate. -/
noncomputable def specSearch (chunks : List Chunk) (am : List (String × String))
    (q : String) (k : ℕ) (gid : Option String) : List Scored :=
  if chunks = [] then []
  else if tokenizeL (applyAliases am q) = [] then []
  else
    (sortDesc (specScoreAllAux chunks (tokenizeL (applyAliases am q))
      (extractQueryTags (applyAliases am q)) gid 0 chunks)).take k

/-! ## Ordering of results (for claim C6) -/

/-- The result order of `search`: score strictly descending, ties broken by
original collection position ascending. -/
def rankLt (a b : Scored) : Prop :=
  b.score < a.score ∨ (a.score = b.score ∧ a.idx < b.idx)

/-- The candidates that receive a positive total score in one `search` call
(none when the query tokenizes to nothing — no scoring is attempted then). -/
noncomputable def eligibleScored (chunks : List Chunk) (am : List (String × String))
    (q : String) (gid : Option String) : List Scored :=
  if tokenizeL (applyAliases am q) = [] then []
  else scoreAll chunks (tokenizeL (applyAliases am q))
    (extractQueryTags (applyAliases am q)) gid

/-! ## Per-token BM25 contribution (for claim C5) -/

/-- The contribution of one query-token occurrence to a chunk's BM25 score —
exactly the body of the scoring loop in `_calculate_bm25_score`:
0 when the term is absent from `doc_freq`, else `idf * tf_norm`.
`bm25Score` is the sum of this quantity over the query token list. -/
noncomputable def singleTermScore (chunks : List Chunk) (t : List Char) (c : Chunk) : ℝ :=
  if docFreq chunks t = 0 then 0 else idf chunks t * tfNorm chunks c t

/-! ## Concrete corpus for the claim C5 counterexample

Three documents; the first one ("u") receives one additional exact-match
occurrence of the query token "t" (its content becomes "u t"), all else
equal.  The query is "t u". -/

def cexChunkU : Chunk := ⟨"u", [], none, none⟩

/-- The same chunk after adding one exact-match occurrence of query token
"t" to its content. -/
def cexChunkUT : Chunk := ⟨"u" ++ " " ++ "t", [], none, none⟩

def cexD1 : Chunk := ⟨"t t t t", [], none, none⟩

def cexD2 : Chunk := ⟨"t", [], none, none⟩

def cexBefore : List Chunk := [cexChunkU, cexD1, cexD2]

def cexAfter : List Chunk := [cexChunkUT, cexD1, cexD2]

/-! ## Chunker (chunker.py) -/

/-- Visual width of a character in half-units: 2 for non-ASCII, 1 for ASCII
(`count_chars` adds 1 or 0.5; we count doubled units). -/
def charUnits2 (c : Char) : ℕ := if 127 < c.toNat then 2 else 1

/-- `Chunker.count_chars` (chunker.py lines 23-34): the floor of the summed
units (non-ASCII = 1, ASCII = 0.5). -/
def countChars (l : List Char) : ℕ := (l.map charUnits2).sum / 2

/-- Python `str.strip()`. -/
def stripL (l : List Char) : List Char :=
  ((l.dropWhile isPySpace).reverse.dropWhile isPySpace).reverse

/-- `re.sub(r'\r\n', '\n', text)`. -/
def replaceCRLF : List Char → List Char
  | [] => []
  | '\x0d' :: '\n' :: rest => '\n' :: replaceCRLF rest
  | c :: rest => c :: replaceCRLF rest

/-- Emission of a pending newline run under `re.sub(r'\n{3,}', '\n\n', ...)`:
runs of three or more newlines become exactly two. -/
def emitNL (n : ℕ) : List Char :=
  if 3 ≤ n then ['\n', '\n'] else List.replicate n '\n'

def collapseNLAux : ℕ → List Char → List Char
  | n, [] => emitNL n
  | n, c :: rest =>
    if c = '\n' then collapseNLAux (n + 1) rest
    else emitNL n ++ c :: collapseNLAux 0 rest

def collapseNL (l : List Char) : List Char := collapseNLAux 0 l

/-- The normalization step of `split_into_chunks` (chunker.py lines 45-48):
strip, CRLF → LF, collapse 3+ newlines to 2. -/
def normalizeText (l : List Char) : List Char := collapseNL (replaceCRLF (stripL l))

/-- The lookahead body `(?:【|#{1,3}\s)` of the header pattern
(chunker.py line 67): a bracket heading or 1-3 `#` followed by whitespace. -/
def isHeaderMarker : List Char → Bool
  | '【' :: _ => true
  | '#' :: c :: rest =>
    if isPySpace c then true
    else if c = '#' then
      match rest with
      | d :: rest2 =>
        if isPySpace d then true
        else if d = '#' then
          match rest2 with
          | e :: _ => isPySpace e
          | [] => false
        else false
      | [] => false
    else false
  | _ => false

/-- `re.split` on the zero-width positions of the header pattern: a cut
happens before every newline that is immediately followed by a header
marker.  `acc` is the current piece, reversed. -/
def splitHAux (acc : List Char) : List Char → List (List Char)
  | [] => [acc.reverse]
  | c :: rest =>
    if c = '\n' && isHeaderMarker rest then acc.reverse :: splitHAux ['\n'] rest
    else splitHAux (c :: acc) rest

/-- `Chunker._split_by_headers` (chunker.py lines 64-72). -/
def splitByHeaders (l : List Char) : List (List Char) :=
  let parts := if isHeaderMarker l then [] :: splitHAux [] l else splitHAux [] l
  let parts2 := (parts.map stripL).filter (fun p => p ≠ [])
  if parts2 = [] then [l] else parts2

/-- Python `text.split('\n\n')`: non-overlapping left-to-right split on the
literal two-newline separator. -/
def splitNNAux (acc : List Char) : List Char → List (List Char)
  | [] => [acc.reverse]
  | '\n' :: '\n' :: rest => acc.reverse :: splitNNAux [] rest
  | c :: rest => splitNNAux (c :: acc) rest

def splitNN (l : List Char) : List (List Char) := splitNNAux [] l

/-- The sentence delimiters of `re.split(r'([。！？!?；;])', text)`
(chunker.py line 127). -/
def isSentDelim (c : Char) : Bool :=
  c == '。' || c == '！' || c == '？' || c == '!' || c == '?' || c == '；' || c == ';'

/-- `re.split` keeping the captured delimiters as separate parts. -/
def splitKDAux (acc : List Char) : List Char → List (List Char)
  | [] => [acc.reverse]
  | c :: rest =>
    if isSentDelim c then acc.reverse :: [c] :: splitKDAux [] rest
    else splitKDAux (c :: acc) rest

/-- The recombination loop of `_split_by_sentences` (chunker.py lines
132-142): re-attach every delimiter part to the preceding text part. -/
def recombineSent : List (List Char) → List (List Char)
  | [] => []
  | [p] => [p]
  | p :: d :: rest =>
    if (match d with | c :: _ => isSentDelim c | [] => false) then
      (p ++ d) :: recombineSent rest
    else p :: recombineSent (d :: rest)

/-- The stripped, non-empty sentences of a paragraph. -/
def sentencesOf (l : List Char) : List (List Char) :=
  ((recombineSent (splitKDAux [] l)).map stripL).filter (fun s => s ≠ [])

/-- State of the greedy packing loops: emitted chunks, current chunk text,
current measured size. -/
structure PackState where
  chunks : List (List Char)
  cur : List Char
  curSize : ℕ

/-- One step of the sentence-packing loop (chunker.py lines 149-162). -/
def stepSent (S : ℕ) (st : PackState) (s : List Char) : PackState :=
  if S < st.curSize + countChars s then
    { chunks := st.chunks ++ (if st.cur ≠ [] then [stripL st.cur] else []),
      cur := s, curSize := countChars s }
  else
    { chunks := st.chunks,
      cur := if st.cur = [] then s else st.cur ++ s,
      curSize := st.curSize + countChars s }

/-- Final emission of the pending chunk (chunker.py lines 119-120, 164-165). -/
def finishPack (st : PackState) : List (List Char) :=
  st.chunks ++ (if st.cur ≠ [] then [stripL st.cur] else [])

/-- `Chunker._split_by_sentences` (chunker.py lines 124-167). -/
def splitBySentences (S : ℕ) (l : List Char) : List (List Char) :=
  finishPack ((sentencesOf l).foldl (stepSent S) ⟨[], [], 0⟩)

/-- One step of the paragraph-packing loop (chunker.py lines 87-117). -/
def stepPara (S : ℕ) (st : PackState) (para0 : List Char) : PackState :=
  if stripL para0 = [] then st
  else if S < countChars (stripL para0) then
    { chunks := st.chunks ++ (if st.cur ≠ [] then [stripL st.cur] else []) ++
        splitBySentences S (stripL para0),
      cur := [], curSize := 0 }
  else if S < st.curSize + countChars (stripL para0) then
    { chunks := st.chunks ++ (if st.cur ≠ [] then [stripL st.cur] else []),
      cur := stripL para0, curSize := countChars (stripL para0) }
  else
    { chunks := st.chunks,
      cur := if st.cur = [] then stripL para0
        else st.cur ++ '\n' :: '\n' :: stripL para0,
      curSize := st.curSize + countChars (stripL para0) }

/-- `Chunker._split_section` (chunker.py lines 74-122). -/
def splitSection (S : ℕ) (l : List Char) : List (List Char) :=
  if countChars l ≤ S then [l]
  else finishPack ((splitNN l).foldl (stepPara S) ⟨[], [], 0⟩)

/-- The tail-collection loop of `_get_tail_text` (chunker.py lines 196-206),
on the reversed text: consume characters while the accumulated doubled-unit
count is below `ov2`. -/
def takeTailAux (ov2 : ℕ) : List Char → ℕ → List Char
  | [], _ => []
  | c :: rest, cnt2 =>
    if cnt2 < ov2 then c :: takeTailAux ov2 rest (cnt2 + charUnits2 c) else []

/-- Python `text.find(pattern)` (first match index). -/
def findSubIdx (pat : List Char) : List Char → Option ℕ
  | [] => if pat = [] then some 0 else none
  | l@(_ :: rest) =>
    if isPreB pat l then some 0 else (findSubIdx pat rest).map (· + 1)

/-- The boundary patterns tried by `_get_tail_text` (chunker.py line 212),
in order. -/
def tailPatterns : List (List Char) :=
  [['\n', '\n'], ['\n'], ['。'], ['！'], ['？'], ['；'], ['.', ' '], ['!', ' '], ['?', ' ']]

/-- The boundary-trimming loop of `_get_tail_text` (chunker.py lines
211-216): the first pattern found within the first half of the tail wins. -/
def applyBoundary : List (List Char) → List Char → List Char
  | [], tail => tail
  | p :: ps, tail =>
    match findSubIdx p tail with
    | some idx =>
      if idx < tail.length / 2 then tail.drop (idx + p.length) else applyBoundary ps tail
    | none => applyBoundary ps tail

/-- `Chunker._get_tail_text` (chunker.py lines 191-218). -/
def getTailText (ov : ℕ) (text : List Char) : List Char :=
  if countChars text ≤ ov then text
  else stripL (applyBoundary tailPatterns ((takeTailAux (2 * ov) text.reverse 0).reverse))

/-- The ellipsis-marked overlap prefix `f"...{overlap_text}\n\n"`. -/
def ellipsisMark (tail : List Char) : List Char :=
  '.' :: '.' :: '.' :: (tail ++ ['\n', '\n'])

/-- `Chunker._apply_overlap` (chunker.py lines 169-189): each chunk after
the first receives the previous (pre-overlap) chunk's tail text, unless it
already starts with that tail's first 20 characters. -/
def applyOverlap (ov : ℕ) (chunks : List (List Char)) : List (List Char) :=
  match chunks with
  | [] => []
  | c0 :: rest =>
    c0 :: (List.zip (c0 :: rest) rest).map (fun pr =>
      if getTailText ov pr.1 ≠ [] ∧ ¬((getTailText ov pr.1).take 20 <+: pr.2) then
        ellipsisMark (getTailText ov pr.1) ++ pr.2
      else pr.2)

/-- The chunk list before the overlap pass: normalize, split by headers,
split each section. -/
def preChunks (S : ℕ) (l : List Char) : List (List Char) :=
  ((splitByHeaders (normalizeText l)).map (splitSection S)).flatten

/-- `Chunker.split_into_chunks` (chunker.py lines 36-62). -/
def splitIntoChunks (S ov : ℕ) (l : List Char) : List (List Char) :=
  if stripL l = [] then []
  else if 0 < ov ∧ 1 < (preChunks S l).length then applyOverlap ov (preChunks S l)
  else preChunks S l

/-! ## Claim C3: predicates on emitted chunks -/

/-- Blank-line join used by the paragraph packer. -/
def joinBlank : List (List Char) → List Char
  | [] => []
  | [p] => p
  | p :: q :: rest => p ++ '\n' :: '\n' :: joinBlank (q :: rest)

/-- The chunk is a blank-line join of paragraphs whose measured visual sizes
sum to at most `S` (the inserted separators are not measured). -/
def ParaPack (S : ℕ) (c : List Char) : Prop :=
  ∃ ps : List (List Char), ps ≠ [] ∧ c = stripL (joinBlank ps) ∧
    (ps.map countChars).sum ≤ S

/-- The piece contains no sentence-boundary delimiter before its final
character: the shape of every piece produced by the sentence split, which
re-attaches each delimiter to the end of the preceding text part. -/
def NoInnerDelim (c : List Char) : Prop :=
  ∀ ch ∈ c.dropLast, isSentDelim ch = false

/-- A sentence piece as produced by the sentence split of a paragraph:
non-empty, fixed by stripping, and with no internal sentence delimiter. -/
def IsSentence (s : List Char) : Prop :=
  s ≠ [] ∧ stripL s = s ∧ NoInnerDelim s

/-- The piece ends with a sentence-boundary delimiter. -/
def EndsWithDelim (s : List Char) : Prop :=
  ∃ p d, isSentDelim d = true ∧ s = p ++ [d]

/-- The chunk is a concatenation of sentence pieces — each non-empty,
stripped, with no internal delimiter, and every piece except the last
ending in a delimiter — whose measured (floored) visual sizes sum to at
most `S`. -/
def SentPack (S : ℕ) (c : List Char) : Prop :=
  ∃ ss : List (List Char), ss ≠ [] ∧ c = stripL ss.flatten ∧
    (∀ s ∈ ss, IsSentence s) ∧ (∀ s ∈ ss.dropLast, EndsWithDelim s) ∧
    (ss.map countChars).sum ≤ S

/-- The chunk is a single sentence piece whose own visual size exceeds `S`
(the documented unsplit edge case). -/
def BigSent (S : ℕ) (c : List Char) : Prop :=
  S < countChars c ∧ IsSentence c

/-- The amended chunk-size guarantee of claim C3. -/
def GoodChunk (S : ℕ) (c : List Char) : Prop :=
  countChars c ≤ S ∨ ParaPack S c ∨ SentPack S c ∨ BigSent S c

/-- The exception clause of claim C3 as stated: a non-empty run of CJK
(non-ASCII) characters, longer than `S`, containing no sentence-boundary
delimiter. -/
def CJKRunException (S : ℕ) (c : List Char) : Prop :=
  S < countChars c ∧ c ≠ [] ∧ (∀ ch ∈ c, 127 < ch.toNat) ∧
    (∀ ch ∈ c, isSentDelim ch = false)

/-- Shape of the part list produced by the delimiter-keeping split: text
parts free of delimiters alternating with singleton delimiter parts. -/
inductive AltParts : List (List Char) → Prop
  | single : ∀ p : List Char, (∀ ch ∈ p, isSentDelim ch = false) → AltParts [p]
  | step : ∀ (p : List Char) (d : Char) (rest : List (List Char)),
      (∀ ch ∈ p, isSentDelim ch = false) → isSentDelim d = true →
      AltParts rest → AltParts (p :: [d] :: rest)

/-- Invariant of the sentence-packing loop while delimiter-terminated
sentences remain to be processed: every accumulated piece ends with a
delimiter. -/
def SentInvS (S : ℕ) (st : PackState) : Prop :=
  (∀ c ∈ st.chunks, SentPack S c ∨ BigSent S c) ∧
  (st.cur = [] ∧ st.curSize = 0 ∨
   ∃ ss : List (List Char), ss ≠ [] ∧ st.cur = ss.flatten ∧
     st.curSize = (ss.map countChars).sum ∧
     (∀ s ∈ ss, IsSentence s) ∧ (∀ s ∈ ss, EndsWithDelim s) ∧
     ((ss.map countChars).sum ≤ S ∨ ∃ s, ss = [s] ∧ S < countChars s))

/-- Invariant of the sentence-packing loop after the final (possibly
delimiter-less) sentence has been processed. -/
def SentInvW (S : ℕ) (st : PackState) : Prop :=
  (∀ c ∈ st.chunks, SentPack S c ∨ BigSent S c) ∧
  (st.cur = [] ∧ st.curSize = 0 ∨
   ∃ ss : List (List Char), ss ≠ [] ∧ st.cur = ss.flatten ∧
     st.curSize = (ss.map countChars).sum ∧
     (∀ s ∈ ss, IsSentence s) ∧ (∀ s ∈ ss.dropLast, EndsWithDelim s) ∧
     ((ss.map countChars).sum ≤ S ∨ ∃ s, ss = [s] ∧ S < countChars s))

/-- Invariant of the paragraph-packing loop. -/
def ParaInv (S : ℕ) (st : PackState) : Prop :=
  (∀ c ∈ st.chunks, GoodChunk S c) ∧
  (st.cur = [] ∧ st.curSize = 0 ∨
   ∃ ps : List (List Char), ps ≠ [] ∧ st.cur = joinBlank ps ∧
     st.curSize = (ps.map countChars).sum ∧ (ps.map countChars).sum ≤ S)

/-! ## Async search with optional providers (searcher.py lines 329-518) -/

/-- The embedding-provider collaborator: `get_embedding` /
`get_embeddings`, both fallible (`Except.error` models a raised
exception). -/
structure EmbeddingProvider where
  getEmbedding : List Char → Except Unit (List ℝ)
  getEmbeddings : List String → Except Unit (List (List ℝ))

/-- One rerank result: original index and relevance score. -/
structure RerankItem where
  index : ℕ
  relevanceScore : ℝ

/-- The reranking-provider collaborator (fallible). -/
structure RerankProvider where
  rerank : List Char → List String → ℕ → Except Unit (List RerankItem)

/-- `Searcher._cosine_similarity` (searcher.py lines 506-518). -/
noncomputable def cosineSimilarity (v1 v2 : List ℝ) : ℝ :=
  if v1 = [] ∨ v2 = [] ∨ v1.length ≠ v2.length then 0
  else if Real.sqrt ((v1.map (fun a => a * a)).sum) = 0 ∨
      Real.sqrt ((v2.map (fun b => b * b)).sum) = 0 then 0
  else ((v1.zip v2).map (fun p => p.1 * p.2)).sum /
    (Real.sqrt ((v1.map (fun a => a * a)).sum) * Real.sqrt ((v2.map (fun b => b * b)).sum))

/-- The smaller tag boost of the semantic path (0.1 per matching tag). -/
noncomputable def semTagScore (qTags : List String) (c : Chunk) : ℝ :=
  if qTags.filter (fun t => decide (t ∈ c.tags)) = [] then 0
  else ((qTags.filter (fun t => decide (t ∈ c.tags))).length : ℝ) * 0.1

/-- The smaller group boost of the semantic path (0.1). -/
noncomputable def semGroupScore (gid : Option String) (c : Chunk) : ℝ :=
  match gid with
  | none => 0
  | some g =>
    if g ≠ "" ∧ c.scope = some "group" ∧ c.groupId = some g then 0.1 else 0

/-- The scoring loop of `_semantic_search` (searcher.py lines 414-446):
chunks beyond the embedding cache are skipped. -/
noncomputable def semScoreAllAux (embs : List (List ℝ)) (qe : List ℝ)
    (qTags : List String) (gid : Option String) : ℕ → List Chunk → List Scored
  | _, [] => []
  | i, c :: rest =>
    (match embs[i]? with
     | none => []
     | some ce =>
       if 0 < cosineSimilarity qe ce + semTagScore qTags c + semGroupScore gid c then
         [⟨i, c, cosineSimilarity qe ce + semTagScore qTags c + semGroupScore gid c⟩]
       else []) ++
    semScoreAllAux embs qe qTags gid (i + 1) rest

/-- `Searcher._semantic_search` (searcher.py lines 381-454), with the lazy
embedding cache computed in the same call (initially empty) and every
exception caught by falling back to the lexical `search` with the same
`top_k`. -/
noncomputable def semanticSearch (chunks : List Chunk) (am : List (String × String))
    (p : EmbeddingProvider) (q : String) (k : ℕ) (gid : Option String) : List Scored :=
  match p.getEmbeddings (chunks.map (fun c => c.content)) with
  | .error _ => search chunks am q k gid
  | .ok embs =>
    if embs = [] then search chunks am q k gid
    else
      match p.getEmbedding (applyAliases am q) with
      | .error _ => search chunks am q k gid
      | .ok qe =>
        (sortDesc (semScoreAllAux embs qe (extractQueryTags (applyAliases am q)) gid
          0 chunks)).take k

/-- `Searcher._rerank_results` (searcher.py lines 456-504): on provider
failure the pre-rerank candidates are returned truncated; on success each
returned index (when in range) selects a candidate whose score is replaced
by the relevance score. -/
noncomputable def rerankResults (am : List (String × String)) (rp : RerankProvider)
    (q : String) (candidates : List Scored) (k : ℕ) : List Scored :=
  match rp.rerank (applyAliases am q) (candidates.map (fun sc => sc.chunk.content)) k with
  | .error _ => candidates.take k
  | .ok items =>
    items.filterMap (fun it =>
      if h : it.index < candidates.length then
        some { candidates.get ⟨it.index, h⟩ with score := it.relevanceScore }
      else none)

/-- The candidate pool of `search_async` (searcher.py lines 349-354):
`3*top_k` semantic candidates when an embedding provider exists, else
lexical candidates (`2*top_k` when a reranker is configured, else
`top_k`). -/
noncomputable def asyncCandidates (chunks : List Chunk) (am : List (String × String))
    (embP : Option EmbeddingProvider) (rerankP : Option RerankProvider)
    (q : String) (k : ℕ) (gid : Option String) : List Scored :=
  match embP with
  | some p => semanticSearch chunks am p q (3 * k) gid
  | none => search chunks am q (if rerankP.isSome then 2 * k else k) gid

/-- `Searcher.search_async` (searcher.py lines 329-363). -/
noncomputable def searchAsync (chunks : List Chunk) (am : List (String × String))
    (embP : Option EmbeddingProvider) (rerankP : Option RerankProvider)
    (q : String) (k : ℕ) (gid : Option String) : List Scored :=
  if chunks = [] then []
  else if (asyncCandidates chunks am embP rerankP q k gid).isEmpty then []
  else
    (match rerankP with
     | some rp =>
       if 1 < (asyncCandidates chunks am embP rerankP q k gid).length then
         rerankResults am rp q (asyncCandidates chunks am embP rerankP q k gid) k
       else asyncCandidates chunks am embP rerankP q k gid
     | none => asyncCandidates chunks am embP rerankP q k gid).take k

/-! ## Concrete instances for claim C4 -/

/-- An embedding provider whose every call raises. -/
def c4FailEmb : EmbeddingProvider :=
  ⟨fun _ => .error (), fun _ => .error ()⟩

/-- A (well-formed but adversarially simple) reranking provider that returns
only the last document, with relevance score 1. -/
noncomputable def c4PickLast : RerankProvider :=
  ⟨fun _ docs _ => .ok [⟨docs.length - 1, 1⟩]⟩

def c4Chunk1 : Chunk := ⟨"x", ["状态:Burn", "主线"], none, none⟩

def c4Chunk2 : Chunk := ⟨"y", ["状态:Burn"], none, none⟩

def c4Chunk3 : Chunk := ⟨"z", [], some "group", some "g"⟩

def c4Chunks : List Chunk := [c4Chunk1, c4Chunk2, c4Chunk3]

/-! ## Tagger (tagger.py) -/

/-- The entity record built by `Tagger.tag_chunk`. -/
structure Entities where
  statuses : List String
  modes : List String
  identities : List String
  egos : List String
  sinners : List String
deriving DecidableEq, Repr

/-- A chunk record as consumed by `Tagger.process_chunks`. -/
structure TagChunk where
  content : String
  tags : List String
  entities : Entities
deriving DecidableEq, Repr

/-- Case-insensitive substring search (a compiled `re.IGNORECASE` alternation
of escaped literals matches iff some literal occurs case-insensitively). -/
def hasSubCI (pat : List Char) : List Char → Bool
  | [] => pat.isEmpty
  | l@(_ :: rest) => isPreCI pat l || hasSubCI pat rest

/-- `pattern.search(content)` for an `re.IGNORECASE` alternation of the given
literal keywords. -/
def anyKwCI (cl : List Char) (kws : List String) : Bool :=
  kws.any (fun kw => hasSubCI kw.toList cl)

/-- `re.search` for a case-sensitive alternation of literal keywords. -/
def anyKwExact (cl : List Char) (kws : List String) : Bool :=
  kws.any (fun kw => hasSub kw.toList cl)

/-- `STATUS_KEYWORDS` (tagger.py lines 13-21): status, its `状态:` tag
(`status.capitalize()`), trigger keywords. -/
def STATUS_KEYWORDS : List (String × String × List String) :=
  [("burn", "状态:Burn", ["burn", "燃烧", "烧伤", "burning"]),
   ("bleed", "状态:Bleed", ["bleed", "流血", "出血", "bleeding"]),
   ("tremor", "状态:Tremor", ["tremor", "震颤", "颤抖"]),
   ("rupture", "状态:Rupture", ["rupture", "破裂", "爆裂"]),
   ("sinking", "状态:Sinking", ["sinking", "沉沦", "下沉"]),
   ("poise", "状态:Poise", ["poise", "蓄力", "架势", "姿态"]),
   ("charge", "状态:Charge", ["charge", "充能"])]

/-- `MODE_KEYWORDS` (tagger.py lines 24-30). -/
def MODE_KEYWORDS : List (String × List String) :=
  [("主线", ["主线", "章节", "story", "main story"]),
   ("镜牢", ["镜牢", "mirror dungeon", "md", "镜像迷宫"]),
   ("铁道", ["铁道", "railway", "rr", "refraction railway", "折射铁道"]),
   ("活动", ["活动", "event", "限时"]),
   ("异想体", ["异想体", "abnormality", "abno"])]

/-- `MECHANICS_KEYWORDS` (tagger.py lines 33-44). -/
def MECHANICS_KEYWORDS : List (String × List String) :=
  [("拼点/冲突", ["拼点", "clash", "冲突", "硬币", "coin", "速度", "speed"]),
   ("罪孽/资源", ["罪孽", "sin", "资源", "resource", "共鸣", "resonance",
                 "暴食", "色欲", "懒惰", "暴怒", "忧郁", "傲慢", "嫉妒",
                 "gluttony", "lust", "sloth", "wrath", "gloom", "pride", "envy"]),
   ("属性/伤害类型", ["斩击", "slash", "穿刺", "pierce", "钝击", "blunt",
                     "抗性", "resistance", "弱点", "weakness", "伤害类型"]),
   ("精神/混乱", ["精神", "sanity", "混乱", "panic", "sp", "理智"]),
   ("技能与被动", ["技能", "skill", "被动", "passive", "主动", "active"]),
   ("EGO机制", ["ego", "侵蚀", "corrosion", "腐蚀", "erosion"]),
   ("结算顺序", ["结算", "回合", "turn", "顺序", "order", "流程"])]

/-- `IDENTITY_KEYWORDS` (tagger.py lines 47-53). -/
def IDENTITY_KEYWORDS : List (String × List String) :=
  [("人格", ["人格", "identity", "id", "000", "00", "三星", "二星", "一星"]),
   ("定位:输出", ["输出", "dps", "damage dealer", "伤害"]),
   ("定位:坦克", ["坦克", "tank", "肉盾", "承伤"]),
   ("定位:辅助", ["辅助", "support", "buff", "增益"]),
   ("定位:控场", ["控场", "control", "cc", "控制"])]

/-- `TEAM_KEYWORDS` (tagger.py lines 56-61). -/
def TEAM_KEYWORDS : List (String × List String) :=
  [("配队/阵容", ["配队", "阵容", "team", "lineup", "编队", "组队"]),
   ("轴/回合规划", ["轴", "回合规划", "rotation", "循环"]),
   ("Boss打法", ["boss", "首领", "打法", "strategy", "攻略"]),
   ("刷取/效率", ["刷", "效率", "farm", "grinding"])]

/-- `SINNER_NAMES` (tagger.py lines 64-77), in declaration order (the order
of alternatives in the compiled alternation). -/
def SINNER_NAMES : List String :=
  ["yi sang", "以撒", "异想", "faust", "浮士德", "don quixote", "堂吉诃德",
   "唐吉诃德", "ryoshu", "良秀", "龙秀", "meursault", "默尔索", "hong lu",
   "洪鹿", "红鹿", "heathcliff", "希斯克利夫", "ishmael", "以实玛利",
   "rodion", "罗季翁", "罗佳", "sinclair", "辛克莱", "outis", "奥提斯",
   "gregor", "格里高尔"]

/-- First alternative of the alternation matching at this position; returns
the matched text. -/
def tryAlts (alts : List (List Char)) (l : List Char) : Option (List Char) :=
  match alts with
  | [] => none
  | a :: rest =>
    if a ≠ [] && isPreCI a l then some (l.take a.length) else tryAlts rest l

/-- `re.findall` for a literal alternation: leftmost, non-overlapping,
first-alternative-wins.  The fuel is the text length. -/
def findAllAltAux (alts : List (List Char)) : ℕ → List Char → List (List Char)
  | 0, _ => []
  | _, [] => []
  | fuel + 1, l@(_ :: rest) =>
    match tryAlts alts l with
    | some m => m :: findAllAltAux alts fuel (l.drop m.length)
    | none => findAllAltAux alts fuel rest

def findAllAlt (alts : List String) (l : List Char) : List (List Char) :=
  findAllAltAux (alts.map String.toList) l.length l

/-- `Tagger._normalize_sinner_name`'s lookup table (tagger.py lines
203-216). -/
def NAME_MAPPING : List (String × String) :=
  [("yi sang", "以撒"), ("以撒", "以撒"), ("异想", "以撒"),
   ("faust", "浮士德"), ("浮士德", "浮士德"),
   ("don quixote", "堂吉诃德"), ("堂吉诃德", "堂吉诃德"), ("唐吉诃德", "堂吉诃德"),
   ("ryoshu", "良秀"), ("良秀", "良秀"), ("龙秀", "良秀"),
   ("meursault", "默尔索"), ("默尔索", "默尔索"),
   ("hong lu", "洪鹿"), ("洪鹿", "洪鹿"), ("红鹿", "洪鹿"),
   ("heathcliff", "希斯克利夫"), ("希斯克利夫", "希斯克利夫"),
   ("ishmael", "以实玛利"), ("以实玛利", "以实玛利"),
   ("rodion", "罗季翁"), ("罗季翁", "罗季翁"), ("罗佳", "罗季翁"),
   ("sinclair", "辛克莱"), ("辛克莱", "辛克莱"),
   ("outis", "奥提斯"), ("奥提斯", "奥提斯"),
   ("gregor", "格里高尔"), ("格里高尔", "格里高尔")]

/-- `Tagger._normalize_sinner_name` (tagger.py lines 199-218). -/
def normalizeSinnerName (m : List Char) : String :=
  ((NAME_MAPPING.lookup (String.mk (stripL (pyLower m))))).getD (String.mk m)

/-- The duplicate-avoiding append used for every entity list
(`if x not in entities[...]: entities[...].append(x)`). -/
def dedupAppend (l : List String) (x : String) : List String :=
  if x ∈ l then l else l ++ [x]

/-- The sinner-entity append, additionally guarded by `if normalized`
(truthiness of the normalized name). -/
def dedupAppendNE (l : List String) (x : String) : List String :=
  if x ≠ "" ∧ x ∉ l then l ++ [x] else l

/-- `\s*[：:]` after the matched prefix. -/
def colonAfterSpaces : List Char → Bool
  | [] => false
  | c :: rest => if isPySpace c then colonAfterSpaces rest else (c == ':' || c == '：')

/-- `re.search(r'Q\s*[：:]', content, re.IGNORECASE)` for a given letter. -/
def hasLetterColon (letter : Char) : List Char → Bool
  | [] => false
  | c :: rest => (c.toLower == letter && colonAfterSpaces rest) || hasLetterColon letter rest

/-- Match `<prefix>[：:]\s*([^\s,，。]+)` at the current position; on success
return the captured name and the rest of the text after it. -/
def matchNameCapture (pre : List Char) (ci : Bool) (l : List Char) :
    Option (List Char × List Char) :=
  if (if ci then isPreCI pre l else isPreB pre l) then
    match l.drop pre.length with
    | [] => none
    | colon :: rest =>
      if colon == ':' || colon == '：' then
        match (rest.dropWhile isPySpace).takeWhile
            (fun c => !(isPySpace c || c == ',' || c == '，' || c == '。')) with
        | [] => none
        | name =>
          some (name, (rest.dropWhile isPySpace).drop name.length)
      else none
  else none

/-- `re.findall` for the capture pattern above (fuel = text length). -/
def findCapturesAux (pre : List Char) (ci : Bool) : ℕ → List Char → List (List Char)
  | 0, _ => []
  | _, [] => []
  | fuel + 1, l@(_ :: rest) =>
    match matchNameCapture pre ci l with
    | some pr => pr.1 :: findCapturesAux pre ci fuel pr.2
    | none => findCapturesAux pre ci fuel rest

/-- `Tagger.tag_chunk` (tagger.py lines 114-197).  Python's tag `set` is
modelled as a duplicate-free list in a fixed construction order (only
membership and cardinality are ever consumed downstream). -/
def tagChunk (content : String) : List String × Entities :=
  let cl := content.toList
  let stHits := STATUS_KEYWORDS.filter (fun e => anyKwCI cl e.2.2)
  let modeHits := MODE_KEYWORDS.filter (fun e => anyKwCI cl e.2)
  let mechTags := (MECHANICS_KEYWORDS.filter (fun e => anyKwCI cl e.2)).map (fun e => e.1)
  let identTags := (IDENTITY_KEYWORDS.filter (fun e => anyKwCI cl e.2)).map (fun e => e.1)
  let teamTags := (TEAM_KEYWORDS.filter (fun e => anyKwCI cl e.2)).map (fun e => e.1)
  let sinners := ((findAllAlt SINNER_NAMES cl).map normalizeSinnerName).foldl dedupAppendNE []
  let hasEgo := hasSubCI "ego".toList cl || hasSubCI "e.g.o".toList cl
  let egos := if hasEgo then
      (findCapturesAux "ego".toList true cl.length cl).map String.mk |>.foldl dedupAppend []
    else []
  let identities :=
    ((findCapturesAux "人格".toList false cl.length cl).map String.mk).foldl dedupAppend []
  let tags :=
    stHits.map (fun e => e.2.1) ++ modeHits.map (fun e => e.1) ++ mechTags ++
    identTags ++ teamTags ++ sinners.map (fun n => "角色:" ++ n) ++
    (if hasEgo then ["EGO"] else []) ++
    (if anyKwExact cl ["新手", "入门", "基础", "教程"] then ["新手入门"] else []) ++
    (if anyKwCI cl ["版本", "更新", "patch", "改动"] then ["版本/更新"] else []) ++
    (if anyKwExact cl ["资源", "养成", "材料", "升级"] then ["资源/养成"] else []) ++
    (if anyKwCI cl ["faq", "问答"] || hasLetterColon 'q' cl || hasLetterColon 'a' cl
      then ["FAQ"] else [])
  (tags,
   { statuses := (stHits.map (fun e => e.1)).foldl dedupAppend []
     modes := (modeHits.map (fun e => e.1)).foldl dedupAppend []
     identities := identities
     egos := egos
     sinners := sinners })

/-- `Tagger.process_chunks` (tagger.py lines 220-235): a total overwrite of
each chunk's `tags` and `entities` from its content. -/
def processChunks (cs : List TagChunk) : List TagChunk :=
  cs.map (fun c =>
    { c with tags := (tagChunk c.content).1, entities := (tagChunk c.content).2 })

/-! ## Helper lemmas about the tokenizer -/

theorem isPySpace_of_isRemoved_space : isPySpace ' ' = true := by decide

theorem not_isPySpace_of_not_isRemoved {c : Char} (h : isRemoved c = false) :
    isPySpace c = false := by
  by_contra hc
  simp only [Bool.not_eq_false] at hc
  simp [isRemoved, hc] at h

theorem filter_subNonChineseAux (l : List Char) :
    ∀ b : Bool, (subNonChineseAux b l).filter (fun c => !(isPySpace c)) =
      l.filter (fun c => !(isRemoved c)) := by
  induction l with
  | nil => intro b; rfl
  | cons c rest ih =>
    intro b
    by_cases hc : isRemoved c = true
    · cases b <;>
        simp [subNonChineseAux, hc, List.filter_cons, isPySpace_of_isRemoved_space, ih]
    · simp only [Bool.not_eq_true] at hc
      have hs := not_isPySpace_of_not_isRemoved hc
      cases b <;> simp [subNonChineseAux, hc, List.filter_cons, hs, ih]

/-- The CJK character list computed by the code (replace runs by a space, then
drop whitespace) equals the direct filter used by the spec. -/
theorem chineseChars_eq_specResidue (l : List Char) :
    chineseChars (pyLower l) = specResidue l := by
  unfold chineseChars specResidue subNonChinese
  exact filter_subNonChineseAux (pyLower l) false

theorem specWords_nil : specWords [] = [] := by
  simp [specWords]

theorem specWords_cons_pos {c : Char} {rest : List Char} (h : isWordChar c = true) :
    specWords (c :: rest) =
      (c :: rest.takeWhile isWordChar) :: specWords (rest.dropWhile isWordChar) := by
  simp [specWords, h]

theorem specWords_cons_neg {c : Char} {rest : List Char} (h : isWordChar c = false) :
    specWords (c :: rest) = specWords rest := by
  simp [specWords, h]

/-- The word-run scanner agrees with the spec-side maximal-run extraction.
The conjunction carries the generalized accumulator statement. -/
theorem wordRunsAux_spec (l : List Char) :
    wordRunsAux [] l = specWords l ∧
    ∀ cur : List Char, cur ≠ [] →
      wordRunsAux cur l =
        (cur.reverse ++ l.takeWhile isWordChar) :: specWords (l.dropWhile isWordChar) := by
  induction l with
  | nil =>
    constructor
    · simp [wordRunsAux, specWords_nil]
    · intro cur hcur
      simp [wordRunsAux, List.isEmpty_iff, hcur, specWords_nil]
  | cons c rest ih =>
    by_cases hc : isWordChar c = true
    · constructor
      · rw [show wordRunsAux [] (c :: rest) = wordRunsAux [c] rest by
            simp [wordRunsAux, hc]]
        rw [ih.2 [c] (by simp), specWords_cons_pos hc]
        simp
      · intro cur hcur
        rw [show wordRunsAux cur (c :: rest) = wordRunsAux (c :: cur) rest by
            simp [wordRunsAux, hc]]
        rw [ih.2 (c :: cur) (by simp)]
        simp [hc, List.takeWhile_cons, List.dropWhile_cons]
    · simp only [Bool.not_eq_true] at hc
      constructor
      · rw [show wordRunsAux [] (c :: rest) = wordRunsAux [] rest by
            simp [wordRunsAux, hc]]
        rw [ih.1, specWords_cons_neg hc]
      · intro cur hcur
        rw [show wordRunsAux cur (c :: rest) = cur.reverse :: wordRunsAux [] rest by
            simp [wordRunsAux, hc, List.isEmpty_iff, hcur]]
        simp [ih.1, hc, specWords_cons_neg hc, List.takeWhile_cons, List.dropWhile_cons]

theorem wordRuns_eq_specWords (l : List Char) : wordRuns l = specWords l :=
  (wordRunsAux_spec l).1

/-- Shared helper: the code tokenizer equals the spec-side tokenizer. -/
theorem tokenizeL_eq_specTokenize (l : List Char) : tokenizeL l = specTokenize l := by
  unfold tokenizeL specTokenize
  rw [wordRuns_eq_specWords, chineseChars_eq_specResidue]

/-- Claim C2: for every input text, `_tokenize` lowercases the text, emits
every maximal run of Latin letters/digits as a whole-word token, strips every
character of the removed classes (letters, digits, punctuation, whitespace,
brackets) to obtain the residue, and emits every residue character as a
unigram and every adjacent residue pair as a bigram; the stream is word
tokens, then unigrams, then bigrams, duplicates kept. -/
theorem C2_tokenize_spec (s : String) : tokenize s = specTokenize s.toList :=
  tokenizeL_eq_specTokenize s.toList

/-! ## Scoring equalities (claim C1) -/

theorem tagScore_eq_specTagBoost (qTags : List String) (c : Chunk) :
    tagScore qTags c = specTagBoost qTags c := by
  unfold tagScore specTagBoost
  by_cases h : qTags.filter (fun t => decide (t ∈ c.tags)) = []
  · simp [h]
  · simp [h]; ring

theorem groupScore_eq_specScopeBoost {gid : Option String} (hg : gid ≠ some "") (c : Chunk) :
    groupScore gid c = specScopeBoost gid c := by
  cases gid with
  | none => simp [groupScore, specScopeBoost]
  | some g =>
    have hg' : g ≠ "" := fun h => hg (by rw [h])
    by_cases h1 : c.scope = some "group" ∧ c.groupId = some g
    · simp [groupScore, specScopeBoost, hg', h1]
    · simp [groupScore, specScopeBoost, hg', h1]

theorem bm25Score_eq_specBM25 (chunks : List Chunk) (qTokens : List (List Char)) (c : Chunk) :
    bm25Score chunks qTokens c = specBM25 chunks qTokens c := by
  unfold bm25Score specBM25
  congr 1
  apply List.map_congr_left
  intro t _
  by_cases h : docFreq chunks t = 0
  · simp [h]
  · have hpos : 0 < docFreq chunks t := Nat.pos_of_ne_zero h
    rw [if_neg h, if_pos hpos]
    unfold idf specIdf tfNorm specTfNorm tfNormDenom bmK1 bmB
    norm_num

theorem totalScore_eq_specTotal {gid : Option String} (hg : gid ≠ some "")
    (chunks : List Chunk) (qTokens : List (List Char)) (qTags : List String) (c : Chunk) :
    totalScore chunks qTokens qTags gid c = specTotal chunks qTokens qTags gid c := by
  unfold totalScore specTotal
  rw [bm25Score_eq_specBM25, tagScore_eq_specTagBoost, groupScore_eq_specScopeBoost hg]

theorem scoreAllAux_eq_specScoreAllAux {gid : Option String} (hg : gid ≠ some "")
    (chunks : List Chunk) (qTokens : List (List Char)) (qTags : List String) :
    ∀ (cs : List Chunk) (i : ℕ),
      scoreAllAux chunks qTokens qTags gid i cs = specScoreAllAux chunks qTokens qTags gid i cs := by
  intro cs
  induction cs with
  | nil => intro i; rfl
  | cons c rest ih =>
    intro i
    unfold scoreAllAux specScoreAllAux
    rw [totalScore_eq_specTotal hg, ih]

/-- Claim C1: for a non-empty chunk collection and a query with a non-empty
token list (and a group id that is not the degenerate empty string), `search`
scores each chunk as BM25 + tag boost + scope boost with the claimed formulas
(`idf = ln((N - df + 0.5)/(df + 0.5) + 1)`,
`tf_norm = tf*(k1+1)/(tf + k1*(1 - b + b*doc_len/avg_doc_len))`, `k1 = 1.5`,
`b = 0.75`, absent tokens contributing 0, 1.5 per matching tag, 1.2 for a
matching group scope), and excludes every chunk whose total is ≤ 0. -/
theorem C1_search_scoring_formula (chunks : List Chunk) (am : List (String × String))
    (q : String) (k : ℕ) (gid : Option String)
    (hc : chunks ≠ []) (ht : tokenizeL (applyAliases am q) ≠ []) (hg : gid ≠ some "") :
    search chunks am q k gid = specSearch chunks am q k gid := by
  unfold search specSearch scoreAll
  rw [if_neg hc, if_neg hc, if_neg ht, if_neg ht,
    scoreAllAux_eq_specScoreAllAux hg]

theorem C1_search_scoring_formula_witness :
    ([⟨"a", [], none, none⟩] : List Chunk) ≠ [] ∧
    tokenizeL (applyAliases [] "a") ≠ [] ∧
    (none : Option String) ≠ some "" ∧
    search [⟨"a", [], none, none⟩] [] "a" 6 none =
      specSearch [⟨"a", [], none, none⟩] [] "a" 6 none :=
  ⟨by decide, by decide, by decide,
    C1_search_scoring_formula [⟨"a", [], none, none⟩] [] "a" 6 none
      (by decide) (by decide) (by decide)⟩

/-! ## Sorting lemmas (claim C6) -/

theorem insertDesc_perm (x : Scored) (l : List Scored) :
    (insertDesc x l).Perm (x :: l) := by
  induction l with
  | nil => exact List.Perm.refl _
  | cons y ys ih =>
    unfold insertDesc
    by_cases h : y.score < x.score
    · rw [if_pos h]
    · rw [if_neg h]
      exact (ih.cons y).trans (List.Perm.swap x y ys)

theorem mem_insertDesc {z x : Scored} {l : List Scored} :
    z ∈ insertDesc x l ↔ z = x ∨ z ∈ l := by
  rw [(insertDesc_perm x l).mem_iff, List.mem_cons]

theorem foldl_insertDesc_perm :
    ∀ (l acc : List Scored), (l.foldl (fun a x => insertDesc x a) acc).Perm (l ++ acc) := by
  intro l
  induction l with
  | nil => intro acc; simp
  | cons c rest ih =>
    intro acc
    have h1 : ((c :: rest).foldl (fun a x => insertDesc x a) acc) =
        rest.foldl (fun a x => insertDesc x a) (insertDesc c acc) := rfl
    rw [h1]
    refine (ih (insertDesc c acc)).trans ?_
    have h2 : (rest ++ insertDesc c acc).Perm (rest ++ c :: acc) :=
      List.Perm.append_left rest (insertDesc_perm c acc)
    refine h2.trans ?_
    exact List.perm_middle

theorem sortDesc_perm (l : List Scored) : (sortDesc l).Perm l := by
  have h := foldl_insertDesc_perm l []
  simpa [sortDesc] using h

theorem insertDesc_pairwise {x : Scored} {l : List Scored}
    (hl : l.Pairwise rankLt) (hidx : ∀ y ∈ l, y.idx < x.idx) :
    (insertDesc x l).Pairwise rankLt := by
  induction l with
  | nil => simp [insertDesc]
  | cons y ys ih =>
    rw [List.pairwise_cons] at hl
    unfold insertDesc
    by_cases h : y.score < x.score
    · rw [if_pos h]
      refine List.Pairwise.cons ?_ (List.Pairwise.cons hl.1 hl.2)
      intro z hz
      rcases List.mem_cons.mp hz with rfl | hz'
      · exact Or.inl h
      · rcases hl.1 z hz' with h2 | h2
        · exact Or.inl (h2.trans h)
        · exact Or.inl (h2.1 ▸ h)
    · rw [if_neg h]
      refine List.Pairwise.cons ?_ (ih hl.2 (fun z hz => hidx z (List.mem_cons_of_mem y hz)))
      intro z hz
      rcases mem_insertDesc.mp hz with rfl | hz'
      · rcases lt_or_eq_of_le (not_lt.mp h) with h2 | h2
        · exact Or.inl h2
        · exact Or.inr ⟨h2.symm, hidx y (List.mem_cons_self y ys)⟩
      · exact hl.1 z hz'

theorem foldl_insertDesc_pairwise :
    ∀ (l acc : List Scored), acc.Pairwise rankLt →
      (∀ y ∈ acc, ∀ x ∈ l, y.idx < x.idx) →
      l.Pairwise (fun a b => a.idx < b.idx) →
      (l.foldl (fun a x => insertDesc x a) acc).Pairwise rankLt := by
  intro l
  induction l with
  | nil => intro acc hacc _ _; exact hacc
  | cons c rest ih =>
    intro acc hacc hcross hl
    rw [List.pairwise_cons] at hl
    have hstep : (insertDesc c acc).Pairwise rankLt :=
      insertDesc_pairwise hacc (fun y hy => hcross y hy c (List.mem_cons_self c rest))
    refine ih (insertDesc c acc) hstep ?_ hl.2
    intro y hy x hx
    rcases mem_insertDesc.mp hy with rfl | hy'
    · exact hl.1 x hx
    · exact hcross y hy' x (List.mem_cons_of_mem c hx)

theorem sortDesc_pairwise {l : List Scored}
    (h : l.Pairwise (fun a b => a.idx < b.idx)) : (sortDesc l).Pairwise rankLt :=
  foldl_insertDesc_pairwise l [] (List.Pairwise.nil) (by intro y hy; cases hy) h

theorem scoreAllAux_idx_ge (chunks : List Chunk) (qTokens : List (List Char))
    (qTags : List String) (gid : Option String) :
    ∀ (cs : List Chunk) (i : ℕ), ∀ x ∈ scoreAllAux chunks qTokens qTags gid i cs, i ≤ x.idx := by
  intro cs
  induction cs with
  | nil => intro i x hx; cases hx
  | cons c rest ih =>
    intro i x hx
    unfold scoreAllAux at hx
    rcases List.mem_append.mp hx with hx' | hx'
    · by_cases h : 0 < totalScore chunks qTokens qTags gid c
      · rw [if_pos h] at hx'
        rcases List.mem_singleton.mp hx' with rfl
        exact le_refl i
      · rw [if_neg h] at hx'
        cases hx'
    · exact le_of_lt (Nat.lt_of_succ_le (ih (i + 1) x hx'))

theorem scoreAllAux_pairwise_idx (chunks : List Chunk) (qTokens : List (List Char))
    (qTags : List String) (gid : Option String) :
    ∀ (cs : List Chunk) (i : ℕ),
      (scoreAllAux chunks qTokens qTags gid i cs).Pairwise (fun a b => a.idx < b.idx) := by
  intro cs
  induction cs with
  | nil => intro i; exact List.Pairwise.nil
  | cons c rest ih =>
    intro i
    unfold scoreAllAux
    rw [List.pairwise_append]
    refine ⟨?_, ih (i + 1), ?_⟩
    · by_cases h : 0 < totalScore chunks qTokens qTags gid c
      · rw [if_pos h]; exact List.pairwise_singleton _ _
      · rw [if_neg h]; exact List.Pairwise.nil
    · intro a ha b hb
      by_cases h : 0 < totalScore chunks qTokens qTags gid c
      · rw [if_pos h] at ha
        rcases List.mem_singleton.mp ha with rfl
        exact Nat.lt_of_succ_le (scoreAllAux_idx_ge chunks qTokens qTags gid rest (i + 1) b hb)
      · rw [if_neg h] at ha
        cases ha

theorem scoreAll_pairwise_idx (chunks : List Chunk) (qTokens : List (List Char))
    (qTags : List String) (gid : Option String) :
    (scoreAll chunks qTokens qTags gid).Pairwise (fun a b => a.idx < b.idx) :=
  scoreAllAux_pairwise_idx chunks qTokens qTags gid chunks 0

/-- Claim C6: for every index state, query, group id and `k ≥ 0`, `search`
returns at most `k` results; the results are ordered by score descending with
ties broken by original collection position ascending; and the returned list
together with some leftover `rest` (every element of which scores no higher
than any returned one) is a permutation of the whole positive-score candidate
list — i.e. the `k` highest-scoring chunks with positive score are returned.
`search` is a pure function of its arguments, so the result is reproducible
for identical inputs. -/
theorem C6_topk_ordering (chunks : List Chunk) (am : List (String × String))
    (q : String) (k : ℕ) (gid : Option String) :
    (search chunks am q k gid).length ≤ k ∧
    (search chunks am q k gid).Pairwise rankLt ∧
    ∃ rest : List Scored,
      (search chunks am q k gid ++ rest).Perm (eligibleScored chunks am q gid) ∧
      ∀ b ∈ rest, ∀ a ∈ search chunks am q k gid, b.score ≤ a.score := by
  unfold search eligibleScored
  by_cases hc : chunks = []
  · rw [if_pos hc]
    by_cases ht : tokenizeL (applyAliases am q) = []
    · rw [if_pos ht]
      exact ⟨Nat.zero_le k, List.Pairwise.nil, [], by simp, by intro b hb; cases hb⟩
    · rw [if_neg ht]
      refine ⟨Nat.zero_le k, List.Pairwise.nil, [], ?_, by intro b hb; cases hb⟩
      subst hc
      simp [scoreAll, scoreAllAux]
  · rw [if_neg hc]
    by_cases ht : tokenizeL (applyAliases am q) = []
    · rw [if_pos ht, if_pos ht]
      exact ⟨Nat.zero_le k, List.Pairwise.nil, [], by simp, by intro b hb; cases hb⟩
    · rw [if_neg ht, if_neg ht]
      have hsorted : (sortDesc (scoreAll chunks (tokenizeL (applyAliases am q))
          (extractQueryTags (applyAliases am q)) gid)).Pairwise rankLt :=
        sortDesc_pairwise (scoreAll_pairwise_idx _ _ _ _)
      refine ⟨List.length_take_le k _, List.Pairwise.sublist (List.take_sublist k _) hsorted,
        (sortDesc (scoreAll chunks (tokenizeL (applyAliases am q))
          (extractQueryTags (applyAliases am q)) gid)).drop k, ?_, ?_⟩
      · rw [List.take_append_drop]
        exact sortDesc_perm _
      · intro b hb a ha
        have h := hsorted
        rw [← List.take_append_drop k (sortDesc (scoreAll chunks
          (tokenizeL (applyAliases am q)) (extractQueryTags (applyAliases am q)) gid))] at h
        rcases (List.pairwise_append.mp h).2.2 a ha b hb with h2 | h2
        · exact le_of_lt h2
        · exact le_of_eq h2.1.symm

/-! ## Claim C8: scope boost exactness -/

/-- Claim C8: with the token list and query tags of any search call, a chunk
with scope `group` and group id `"123"` receives a total score exactly 1.2
higher than an otherwise-identical global chunk when the call supplies group
id `"123"`, and exactly the same total score when no group id is supplied. -/
theorem C8_scope_boost_exact (chunks : List Chunk) (am : List (String × String))
    (q : String) (content : String) (tags : List String) (g : Option String) :
    totalScore chunks (tokenizeL (applyAliases am q)) (extractQueryTags (applyAliases am q))
        (some "123") ⟨content, tags, some "group", some "123"⟩ =
      totalScore chunks (tokenizeL (applyAliases am q)) (extractQueryTags (applyAliases am q))
        (some "123") ⟨content, tags, some "global", g⟩ + 1.2 ∧
    totalScore chunks (tokenizeL (applyAliases am q)) (extractQueryTags (applyAliases am q))
        none ⟨content, tags, some "group", some "123"⟩ =
      totalScore chunks (tokenizeL (applyAliases am q)) (extractQueryTags (applyAliases am q))
        none ⟨content, tags, some "global", g⟩ := by
  constructor
  · have hb : bm25Score chunks (tokenizeL (applyAliases am q))
        ⟨content, tags, some "group", some "123"⟩ =
        bm25Score chunks (tokenizeL (applyAliases am q))
        ⟨content, tags, some "global", g⟩ := rfl
    have htag : tagScore (extractQueryTags (applyAliases am q))
        ⟨content, tags, some "group", some "123"⟩ =
        tagScore (extractQueryTags (applyAliases am q))
        ⟨content, tags, some "global", g⟩ := rfl
    have hgs1 : groupScore (some "123") ⟨content, tags, some "group", some "123"⟩ = 1.2 := by
      show (if ("123" : String) ≠ "" ∧ (some "group" : Option String) = some "group" ∧
          (some "123" : Option String) = some "123" then (1.2 : ℝ) else 0) = 1.2
      rw [if_pos]
      exact ⟨by decide, rfl, rfl⟩
    have hgs2 : groupScore (some "123") ⟨content, tags, some "global", g⟩ = 0 := by
      show (if ("123" : String) ≠ "" ∧ (some "global" : Option String) = some "group" ∧
          g = some "123" then (1.2 : ℝ) else 0) = 0
      rw [if_neg]
      rintro ⟨-, h2, -⟩
      exact (by decide : (some "global" : Option String) ≠ some "group") h2
    unfold totalScore
    rw [hb, htag, hgs1, hgs2]
    ring
  · unfold totalScore groupScore
    rfl

/-! ## Claim C10: no division by zero in BM25 scoring -/

/-- Claim C10: whenever some term is present in `doc_freq` (the only case in
which the BM25 loop body runs), the average document length is strictly
positive, and every `tf_norm` denominator is strictly positive; hence the
scoring code never divides by zero and `search` is total on every reachable
index state (the index is always the one built from the current chunk list by
`_build_index`, whether reached via the constructor or `update_chunks`). -/
theorem C10_no_div_by_zero (chunks : List Chunk) (t : List Char)
    (h : 0 < docFreq chunks t) :
    0 < avgDocLen chunks ∧ ∀ c ∈ chunks, ∀ u : List Char, 0 < tfNormDenom chunks c u := by
  have hex : ∃ c ∈ chunks, t ∈ chunkTokens c := by
    have := List.countP_pos_iff.mp h
    rcases this with ⟨c, hc, hct⟩
    exact ⟨c, hc, of_decide_eq_true hct⟩
  rcases hex with ⟨c0, hc0, hct0⟩
  have hne : chunks ≠ [] := by
    intro hnil; rw [hnil] at hc0; cases hc0
  have hdl : 1 ≤ docLen c0 := by
    have : chunkTokens c0 ≠ [] := fun hnil => by rw [hnil] at hct0; cases hct0
    exact List.length_pos.mpr this
  have htot : 1 ≤ totalLen chunks := by
    have hmem : docLen c0 ∈ chunks.map docLen := List.mem_map_of_mem docLen hc0
    have := List.single_le_sum (fun x _ => Nat.zero_le x) _ hmem
    exact le_trans hdl this
  have hlen : 0 < chunks.length := List.length_pos.mpr hne
  have havg : 0 < avgDocLen chunks := by
    unfold avgDocLen
    rw [if_neg hne]
    apply div_pos
    · exact_mod_cast htot
    · exact_mod_cast hlen
  refine ⟨havg, ?_⟩
  intro c _ u
  unfold tfNormDenom bmK1 bmB
  have h1 : (0 : ℝ) ≤ (docLen c : ℝ) / avgDocLen chunks :=
    div_nonneg (Nat.cast_nonneg _) (le_of_lt havg)
  have h2 : (0 : ℝ) ≤ (termFreq c u : ℝ) := Nat.cast_nonneg _
  rw [mul_div_assoc]
  nlinarith

theorem C10_no_div_by_zero_witness :
    0 < docFreq [⟨"u", [], none, none⟩] ['u'] ∧
    (0 < avgDocLen [⟨"u", [], none, none⟩] ∧
     ∀ c ∈ ([⟨"u", [], none, none⟩] : List Chunk), ∀ u : List Char,
       0 < tfNormDenom [⟨"u", [], none, none⟩] c u) :=
  ⟨by decide, C10_no_div_by_zero [⟨"u", [], none, none⟩] ['u'] (by decide)⟩

/-! ## Helper lemmas for claim C5 -/

theorem docFreq_le_length (chunks : List Chunk) (t : List Char) :
    docFreq chunks t ≤ chunks.length :=
  List.countP_le_length _

theorem idf_nonneg (chunks : List Chunk) (t : List Char) : 0 ≤ idf chunks t := by
  unfold idf
  apply Real.log_nonneg
  have h1 : (docFreq chunks t : ℝ) ≤ (chunks.length : ℝ) := by
    exact_mod_cast docFreq_le_length chunks t
  have h2 : (0 : ℝ) < (docFreq chunks t : ℝ) + 0.5 := by positivity
  have h3 : (0 : ℝ) ≤ ((chunks.length : ℝ) - (docFreq chunks t : ℝ) + 0.5) /
      ((docFreq chunks t : ℝ) + 0.5) :=
    div_nonneg (by linarith) (le_of_lt h2)
  linarith

theorem avgDocLen_pos (chunks : List Chunk) (t : List Char)
    (h : 0 < docFreq chunks t) : 0 < avgDocLen chunks := by
  have hex : ∃ c ∈ chunks, t ∈ chunkTokens c := by
    rcases List.countP_pos_iff.mp h with ⟨c, hc, hct⟩
    exact ⟨c, hc, of_decide_eq_true hct⟩
  rcases hex with ⟨c0, hc0, hct0⟩
  have hne : chunks ≠ [] := by
    intro hnil; rw [hnil] at hc0; cases hc0
  have hdl : 1 ≤ docLen c0 :=
    List.length_pos.mpr (fun hnil => by rw [hnil] at hct0; cases hct0)
  have htot : 1 ≤ totalLen chunks := by
    have hmem : docLen c0 ∈ chunks.map docLen := List.mem_map_of_mem docLen hc0
    exact le_trans hdl (List.single_le_sum (fun x _ => Nat.zero_le x) _ hmem)
  unfold avgDocLen
  rw [if_neg hne]
  apply div_pos
  · exact_mod_cast htot
  · exact_mod_cast List.length_pos.mpr hne

theorem tfNormDenom_pos (chunks : List Chunk) (c : Chunk) (u : List Char)
    (havg : 0 < avgDocLen chunks) : 0 < tfNormDenom chunks c u := by
  unfold tfNormDenom bmK1 bmB
  have h1 : (0 : ℝ) ≤ (docLen c : ℝ) / avgDocLen chunks :=
    div_nonneg (Nat.cast_nonneg _) (le_of_lt havg)
  have h2 : (0 : ℝ) ≤ (termFreq c u : ℝ) := Nat.cast_nonneg _
  rw [mul_div_assoc]
  nlinarith

theorem pyLower_append (a b : List Char) : pyLower (a ++ b) = pyLower a ++ pyLower b :=
  List.map_append _ a b

theorem pyLower_fixed {t : List Char} (hw : ∀ ch ∈ t, ch.toLower = ch) : pyLower t = t := by
  induction t with
  | nil => rfl
  | cons c rest ih =>
    show Char.toLower c :: pyLower rest = c :: rest
    rw [hw c (List.mem_cons_self c rest), ih (fun ch hch => hw ch (List.mem_cons_of_mem c hch))]

theorem wordRunsAux_append_sep {sep : Char} (hsep : isWordChar sep = false) :
    ∀ (l₁ cur l₂ : List Char),
      wordRunsAux cur (l₁ ++ sep :: l₂) = wordRunsAux cur l₁ ++ wordRunsAux [] l₂ := by
  intro l₁
  induction l₁ with
  | nil =>
    intro cur l₂
    cases hc : cur.isEmpty <;> simp [wordRunsAux, hsep, hc]
  | cons c rest ih =>
    intro cur l₂
    by_cases hc : isWordChar c = true
    · simp only [List.cons_append]
      rw [show wordRunsAux cur (c :: (rest ++ sep :: l₂)) =
          wordRunsAux (c :: cur) (rest ++ sep :: l₂) by simp [wordRunsAux, hc]]
      rw [show wordRunsAux cur (c :: rest) = wordRunsAux (c :: cur) rest by
          simp [wordRunsAux, hc]]
      exact ih (c :: cur) l₂
    · simp only [Bool.not_eq_true] at hc
      cases hcur : cur.isEmpty
      · simp only [List.cons_append]
        rw [show wordRunsAux cur (c :: (rest ++ sep :: l₂)) =
            cur.reverse :: wordRunsAux [] (rest ++ sep :: l₂) by
            simp [wordRunsAux, hc, hcur]]
        rw [show wordRunsAux cur (c :: rest) = cur.reverse :: wordRunsAux [] rest by
            simp [wordRunsAux, hc, hcur]]
        rw [ih [] l₂]
        rfl
      · simp only [List.cons_append]
        rw [show wordRunsAux cur (c :: (rest ++ sep :: l₂)) =
            wordRunsAux [] (rest ++ sep :: l₂) by simp [wordRunsAux, hc, hcur]]
        rw [show wordRunsAux cur (c :: rest) = wordRunsAux [] rest by
            simp [wordRunsAux, hc, hcur]]
        exact ih [] l₂

theorem wordRunsAux_allWord {t : List Char} (hw : ∀ ch ∈ t, isWordChar ch = true) :
    ∀ cur : List Char, (cur ≠ [] ∨ t ≠ []) → wordRunsAux cur t = [cur.reverse ++ t] := by
  induction t with
  | nil =>
    intro cur h
    rcases h with h | h
    · simp [wordRunsAux, List.isEmpty_iff, h]
    · exact absurd rfl h
  | cons c rest ih =>
    intro cur _
    have hc : isWordChar c = true := hw c (List.mem_cons_self c rest)
    rw [show wordRunsAux cur (c :: rest) = wordRunsAux (c :: cur) rest by
        simp [wordRunsAux, hc]]
    rw [ih (fun ch hch => hw ch (List.mem_cons_of_mem c hch)) (c :: cur) (Or.inl (by simp))]
    simp

theorem wordRuns_addWord (l t : List Char) (ht : t ≠ [])
    (hwAll : ∀ ch ∈ t, isWordChar ch = true) :
    wordRuns (l ++ ' ' :: t) = wordRuns l ++ [t] := by
  unfold wordRuns
  rw [wordRunsAux_append_sep (by decide) l [] t,
    wordRunsAux_allWord hwAll [] (Or.inr ht)]
  simp

theorem chineseChars_eq_filter (l : List Char) :
    chineseChars l = l.filter (fun c => !(isRemoved c)) :=
  filter_subNonChineseAux l false

theorem chineseChars_addWord (l t : List Char)
    (hwAll : ∀ ch ∈ t, isWordChar ch = true) :
    chineseChars (l ++ ' ' :: t) = chineseChars l := by
  rw [chineseChars_eq_filter, chineseChars_eq_filter, List.filter_append]
  have h : (' ' :: t).filter (fun c => !(isRemoved c)) = [] := by
    apply List.filter_eq_nil_iff.mpr
    intro ch hch
    rcases List.mem_cons.mp hch with rfl | hch'
    · decide
    · simp [isRemoved, hwAll ch hch']
  rw [h, List.append_nil]

theorem tokenizeL_addWord (l t : List Char) (ht : t ≠ [])
    (hw : ∀ ch ∈ t, isWordChar ch = true ∧ ch.toLower = ch) :
    tokenizeL (l ++ ' ' :: t) =
      (wordRuns (pyLower l) ++ [t]) ++
        ((chineseChars (pyLower l)).map (fun c => [c]) ++
          bigrams (chineseChars (pyLower l))) := by
  have hlow : pyLower (l ++ ' ' :: t) = pyLower l ++ ' ' :: t := by
    rw [pyLower_append]
    congr 1
    show Char.toLower ' ' :: pyLower t = ' ' :: t
    rw [pyLower_fixed (fun ch hch => (hw ch hch).2)]
    rw [show Char.toLower ' ' = ' ' from by decide]
  unfold tokenizeL
  rw [hlow, wordRuns_addWord _ _ ht (fun ch hch => (hw ch hch).1),
    chineseChars_addWord _ _ (fun ch hch => (hw ch hch).1)]
  simp [List.append_assoc]

theorem count_tokenizeL_addWord (l t u : List Char) (ht : t ≠ [])
    (hw : ∀ ch ∈ t, isWordChar ch = true ∧ ch.toLower = ch) :
    (tokenizeL (l ++ ' ' :: t)).count u =
      (tokenizeL l).count u + (if u = t then 1 else 0) := by
  rw [tokenizeL_addWord l t ht hw]
  unfold tokenizeL
  by_cases hu : u = t
  · subst hu
    simp [List.count_append, List.count_singleton_self]
    omega
  · have h0 : List.count u [t] = 0 := by
      rw [List.count_eq_zero]
      simp [hu]
    simp only [List.count_append, h0, if_neg hu]
    omega

theorem length_tokenizeL_addWord (l t : List Char) (ht : t ≠ [])
    (hw : ∀ ch ∈ t, isWordChar ch = true ∧ ch.toLower = ch) :
    (tokenizeL (l ++ ' ' :: t)).length = (tokenizeL l).length + 1 := by
  rw [tokenizeL_addWord l t ht hw]
  unfold tokenizeL
  simp only [List.length_append, List.length_singleton]
  omega

theorem mem_tokenizeL_addWord (l t u : List Char) (ht : t ≠ [])
    (hw : ∀ ch ∈ t, isWordChar ch = true ∧ ch.toLower = ch) :
    u ∈ tokenizeL (l ++ ' ' :: t) ↔ u ∈ tokenizeL l ∨ u = t := by
  rw [tokenizeL_addWord l t ht hw]
  unfold tokenizeL
  simp only [List.mem_append, List.mem_singleton]
  tauto

theorem tfNorm_step_ge (a d A A' : ℝ) (ha : 0 ≤ a) (had : a ≤ d)
    (hA : 0 < A) (hAA : A ≤ A') :
    a * (1.5 + 1) / (a + 1.5 * (1 - 0.75 + 0.75 * d / A)) ≤
      (a + 1) * (1.5 + 1) / ((a + 1) + 1.5 * (1 - 0.75 + 0.75 * (d + 1) / A')) := by
  have hA' : 0 < A' := lt_of_lt_of_le hA hAA
  have hd : 0 ≤ d := le_trans ha had
  have hdA : 0 ≤ d / A := div_nonneg hd (le_of_lt hA)
  have hdA' : 0 ≤ (d + 1) / A' := div_nonneg (by linarith) (le_of_lt hA')
  have hD1 : 0 < a + 1.5 * (1 - 0.75 + 0.75 * d / A) := by
    rw [mul_div_assoc]
    nlinarith
  have hD2 : 0 < (a + 1) + 1.5 * (1 - 0.75 + 0.75 * (d + 1) / A') := by
    rw [mul_div_assoc]
    nlinarith
  rw [div_le_div_iff₀ hD1 hD2]
  have f1 : (d + 1) / A' ≤ (d + 1) / A :=
    div_le_div_of_nonneg_left (by linarith) hA hAA
  have f2 : a * ((d + 1) / A') ≤ a * (d / A + 1 / A) := by
    apply mul_le_mul_of_nonneg_left _ ha
    rw [← add_div]
    exact f1
  have f3 : a * (1 / A) ≤ d * (1 / A) :=
    mul_le_mul_of_nonneg_right had (by positivity)
  have f4 : d * (1 / A) = d / A := mul_one_div d A
  rw [mul_div_assoc, mul_div_assoc]
  nlinarith [f2, f3, f4]

/-! ## Claim C5: amended statement and proof -/

theorem chunkTokens_addWord (c : Chunk) (t : List Char) :
    chunkTokens { c with content := c.content ++ " " ++ String.mk t } =
      tokenizeL (c.content.toList ++ ' ' :: t) := by
  show tokenizeL ((c.content ++ " " ++ String.mk t).toList) = _
  congr 1
  show (c.content ++ " " ++ String.mk t).data = c.content.data ++ ' ' :: t
  rw [String.data_append, String.data_append]
  simp

/-- Claim C5, amended: adding one exact-match occurrence of a (lower-case
Latin/digit word) query token to a chunk's content, holding all else equal,
never decreases that token's own BM25 contribution to that chunk's score.
(The chunk's total score can still decrease, because the longer document
down-weights the other query terms — see the counterexample.) -/
theorem C5_term_contribution_monotone (pre post : List Chunk) (c : Chunk) (t : List Char)
    (ht : t ≠ []) (hw : ∀ ch ∈ t, isWordChar ch = true ∧ ch.toLower = ch) :
    singleTermScore (pre ++ c :: post) t c ≤
      singleTermScore (pre ++ { c with content := c.content ++ " " ++ String.mk t } :: post)
        t { c with content := c.content ++ " " ++ String.mk t } := by
  set c' : Chunk := { c with content := c.content ++ " " ++ String.mk t } with hc'
  set chunks1 : List Chunk := pre ++ c :: post with hchunks1
  set chunks2 : List Chunk := pre ++ c' :: post with hchunks2
  have hTok : chunkTokens c' = tokenizeL (c.content.toList ++ ' ' :: t) :=
    chunkTokens_addWord c t
  have hTokc : chunkTokens c = tokenizeL c.content.toList := rfl
  have htf : termFreq c' t = termFreq c t + 1 := by
    unfold termFreq
    rw [hTok, hTokc, count_tokenizeL_addWord _ _ _ ht hw, if_pos rfl]
  have hdl : docLen c' = docLen c + 1 := by
    unfold docLen
    rw [hTok, hTokc, length_tokenizeL_addWord _ _ ht hw]
  have hmem' : t ∈ chunkTokens c' := by
    rw [hTok, mem_tokenizeL_addWord _ _ _ ht hw]
    exact Or.inr rfl
  have hdf2pos : 0 < docFreq chunks2 t :=
    List.countP_pos_iff.mpr ⟨c', by simp [hchunks2], decide_eq_true hmem'⟩
  have havg2 : 0 < avgDocLen chunks2 := avgDocLen_pos chunks2 t hdf2pos
  by_cases htf0 : termFreq c t = 0
  · -- the token was absent: old contribution is 0, new one is nonnegative
    have hbefore : singleTermScore chunks1 t c = 0 := by
      unfold singleTermScore
      by_cases hdf1 : docFreq chunks1 t = 0
      · rw [if_pos hdf1]
      · rw [if_neg hdf1]
        unfold tfNorm
        rw [htf0]
        norm_num
    rw [hbefore]
    unfold singleTermScore
    rw [if_neg (Nat.pos_iff_ne_zero.mp hdf2pos)]
    apply mul_nonneg (idf_nonneg _ _)
    unfold tfNorm
    apply div_nonneg
    · apply mul_nonneg (Nat.cast_nonneg _)
      unfold bmK1
      norm_num
    · exact le_of_lt (tfNormDenom_pos _ _ _ havg2)
  · -- the token was already present: df and idf unchanged, tf_norm grows
    have hmem : t ∈ chunkTokens c := by
      rcases List.count_pos_iff.mp (Nat.pos_of_ne_zero htf0) with h
      exact h
    have hdf1pos : 0 < docFreq chunks1 t :=
      List.countP_pos_iff.mpr ⟨c, by simp [hchunks1], decide_eq_true hmem⟩
    have havg1 : 0 < avgDocLen chunks1 := avgDocLen_pos chunks1 t hdf1pos
    have hdfEq : docFreq chunks2 t = docFreq chunks1 t := by
      unfold docFreq
      rw [hchunks1, hchunks2, List.countP_append, List.countP_append,
        List.countP_cons, List.countP_cons, decide_eq_true hmem, decide_eq_true hmem']
    have hlenEq : chunks2.length = chunks1.length := by
      rw [hchunks1, hchunks2]; simp
    have hIdfEq : idf chunks2 t = idf chunks1 t := by
      unfold idf
      rw [hdfEq, hlenEq]
    have hne1 : chunks1 ≠ [] := by
      rw [hchunks1]; simp
    have hne2 : chunks2 ≠ [] := by
      rw [hchunks2]; simp
    have htl : totalLen chunks2 = totalLen chunks1 + 1 := by
      unfold totalLen
      rw [hchunks1, hchunks2]
      simp only [List.map_append, List.map_cons, List.sum_append, List.sum_cons]
      rw [hdl]
      omega
    have havgle : avgDocLen chunks1 ≤ avgDocLen chunks2 := by
      unfold avgDocLen
      rw [if_neg hne1, if_neg hne2, htl, hlenEq]
      have hN : (0 : ℝ) < (chunks1.length : ℝ) := by
        exact_mod_cast List.length_pos.mpr hne1
      have hnum : ((totalLen chunks1 : ℕ) : ℝ) ≤ ((totalLen chunks1 + 1 : ℕ) : ℝ) := by
        exact_mod_cast Nat.le_succ _
      rw [div_le_div_iff₀ hN hN]
      nlinarith [hnum, hN]
    unfold singleTermScore
    rw [if_neg (Nat.pos_iff_ne_zero.mp hdf1pos), if_neg (Nat.pos_iff_ne_zero.mp hdf2pos),
      hIdfEq]
    apply mul_le_mul_of_nonneg_left _ (idf_nonneg chunks1 t)
    unfold tfNorm tfNormDenom bmK1 bmB
    rw [htf, hdl]
    push_cast
    have hcl : termFreq c t ≤ docLen c := List.count_le_length t (chunkTokens c)
    exact tfNorm_step_ge (termFreq c t : ℝ) (docLen c : ℝ)
      (avgDocLen chunks1) (avgDocLen chunks2) (Nat.cast_nonneg _)
      (by exact_mod_cast hcl) havg1 havgle

theorem C5_term_contribution_monotone_witness :
    (['t'] : List Char) ≠ [] ∧
    (∀ ch ∈ (['t'] : List Char), isWordChar ch = true ∧ ch.toLower = ch) ∧
    singleTermScore [⟨"u", [], none, none⟩] ['t'] ⟨"u", [], none, none⟩ ≤
      singleTermScore
        [{ (⟨"u", [], none, none⟩ : Chunk) with content := "u" ++ " " ++ String.mk ['t'] }]
        ['t'] { (⟨"u", [], none, none⟩ : Chunk) with content := "u" ++ " " ++ String.mk ['t'] } :=
  ⟨by decide, by decide,
    C5_term_contribution_monotone [] [] ⟨"u", [], none, none⟩ ['t'] (by decide) (by decide)⟩

/-! ## Claim C5: counterexample evaluation -/

theorem cex_tokens : tokenizeL (applyAliases [] "t u") = [['t'], ['u']] := by decide

theorem cex_tags : extractQueryTags (applyAliases [] "t u") = [] := by decide

theorem cex_avg_before : avgDocLen cexBefore = 2 := by
  unfold avgDocLen
  rw [if_neg (by decide : ¬cexBefore = []),
    show totalLen cexBefore = 6 from by decide,
    show cexBefore.length = 3 from rfl]
  norm_num

theorem cex_avg_after : avgDocLen cexAfter = 7 / 3 := by
  unfold avgDocLen
  rw [if_neg (by decide : ¬cexAfter = []),
    show totalLen cexAfter = 7 from by decide,
    show cexAfter.length = 3 from rfl]
  norm_num

theorem cex_score_before :
    totalScore cexBefore (tokenizeL (applyAliases [] "t u"))
      (extractQueryTags (applyAliases [] "t u")) none cexChunkU =
    Real.log (8 / 3) * (40 / 31) := by
  rw [cex_tokens, cex_tags]
  unfold totalScore
  rw [show groupScore none cexChunkU = 0 from rfl,
    show tagScore [] cexChunkU = 0 from by unfold tagScore; simp]
  unfold bm25Score
  rw [List.map_cons, List.map_cons, List.map_nil, List.sum_cons, List.sum_cons, List.sum_nil]
  rw [if_neg (by decide : ¬docFreq cexBefore ['t'] = 0),
    if_neg (by decide : ¬docFreq cexBefore ['u'] = 0)]
  unfold idf tfNorm tfNormDenom bmK1 bmB
  rw [show docFreq cexBefore ['t'] = 2 from by decide,
    show docFreq cexBefore ['u'] = 1 from by decide,
    show termFreq cexChunkU ['t'] = 0 from by decide,
    show termFreq cexChunkU ['u'] = 1 from by decide,
    show docLen cexChunkU = 1 from by decide,
    show cexBefore.length = 3 from rfl, cex_avg_before]
  push_cast
  norm_num

theorem cex_score_after :
    totalScore cexAfter (tokenizeL (applyAliases [] "t u"))
      (extractQueryTags (applyAliases [] "t u")) none cexChunkUT =
    Real.log (8 / 7) * (140 / 131) + Real.log (8 / 3) * (140 / 131) := by
  rw [cex_tokens, cex_tags]
  unfold totalScore
  rw [show groupScore none cexChunkUT = 0 from rfl,
    show tagScore [] cexChunkUT = 0 from by unfold tagScore; simp]
  unfold bm25Score
  rw [List.map_cons, List.map_cons, List.map_nil, List.sum_cons, List.sum_cons, List.sum_nil]
  rw [if_neg (by decide : ¬docFreq cexAfter ['t'] = 0),
    if_neg (by decide : ¬docFreq cexAfter ['u'] = 0)]
  unfold idf tfNorm tfNormDenom bmK1 bmB
  rw [show docFreq cexAfter ['t'] = 3 from by decide,
    show docFreq cexAfter ['u'] = 1 from by decide,
    show termFreq cexChunkUT ['t'] = 1 from by decide,
    show termFreq cexChunkUT ['u'] = 1 from by decide,
    show docLen cexChunkUT = 2 from by decide,
    show cexAfter.length = 3 from rfl, cex_avg_after]
  push_cast
  norm_num

/-- Claim C5 counterexample: corpus "u", "t t t t", "t", query "t u".  Adding
one exact-match occurrence of the query token "t" to the first chunk (its
content "u" becomes "u" ++ " " ++ "t"), holding all else equal, strictly
decreases that chunk's total search score for the same query. -/
theorem C5_counterexample_score_decreases :
    cexChunkUT.content = cexChunkU.content ++ " " ++ "t" ∧
    totalScore cexAfter (tokenizeL (applyAliases [] "t u"))
        (extractQueryTags (applyAliases [] "t u")) none cexChunkUT <
      totalScore cexBefore (tokenizeL (applyAliases [] "t u"))
        (extractQueryTags (applyAliases [] "t u")) none cexChunkU := by
  refine ⟨rfl, ?_⟩
  rw [cex_score_before, cex_score_after]
  have h1 : Real.log (8 / 7) ≤ 8 / 7 - 1 := Real.log_le_sub_one_of_pos (by norm_num)
  have h3 : Real.log (3 / 4) ≤ 3 / 4 - 1 := Real.log_le_sub_one_of_pos (by norm_num)
  have h4 : Real.log (4 / 3) = -Real.log (3 / 4) := by
    rw [← Real.log_inv]
    norm_num
  have h5 : Real.log (8 / 3) = Real.log 2 + Real.log (4 / 3) := by
    rw [← Real.log_mul (by norm_num) (by norm_num)]
    norm_num
  have h6 : (0.6931471803 : ℝ) < Real.log 2 := Real.log_two_gt_d9
  have h7 : (0.9431471803 : ℝ) < Real.log (8 / 3) := by
    rw [h5, h4]
    linarith
  linarith

/-! ## Claim C3: packing-loop invariants -/

theorem flatten_eq_nil_sum (ss : List (List Char)) (h : ss.flatten = []) :
    (ss.map countChars).sum = 0 := by
  apply List.sum_eq_zero
  intro x hx
  rcases List.mem_map.mp hx with ⟨s, hs, rfl⟩
  have hs0 : s = [] := by
    rcases List.flatten_eq_nil_iff.mp h with hall
    exact hall s hs
  rw [hs0]
  rfl

theorem joinBlank_eq_nil_sum (ps : List (List Char)) (h : joinBlank ps = []) :
    (ps.map countChars).sum = 0 := by
  cases ps with
  | nil => rfl
  | cons p rest =>
    cases rest with
    | nil =>
      have hp : p = [] := h
      rw [hp]
      rfl
    | cons q rest2 =>
      exfalso
      have : joinBlank (p :: q :: rest2) = p ++ '\n' :: '\n' :: joinBlank (q :: rest2) := rfl
      rw [this] at h
      simp at h

theorem joinBlank_append_single (ps : List (List Char)) (p : List Char) (h : ps ≠ []) :
    joinBlank (ps ++ [p]) = joinBlank ps ++ '\n' :: '\n' :: p := by
  induction ps with
  | nil => exact absurd rfl h
  | cons a rest ih =>
    cases rest with
    | nil => rfl
    | cons b rest2 =>
      have h1 : joinBlank ((a :: b :: rest2) ++ [p]) =
          a ++ '\n' :: '\n' :: joinBlank ((b :: rest2) ++ [p]) := rfl
      rw [h1, ih (by simp)]
      simp [joinBlank]

theorem dropWhile_head_not (p : Char → Bool) :
    ∀ (l : List Char) (c : Char) (cs : List Char), l.dropWhile p = c :: cs → p c = false := by
  intro l
  induction l with
  | nil => intro c cs h; simp at h
  | cons a t ih =>
    intro c cs h
    rw [List.dropWhile_cons] at h
    by_cases hp : p a = true
    · rw [if_pos hp] at h
      exact ih c cs h
    · rw [if_neg hp] at h
      rcases h with ⟨rfl, -⟩
      exact Bool.eq_false_iff.mpr hp

theorem dropWhile_idem (p : Char → Bool) (l : List Char) :
    (l.dropWhile p).dropWhile p = l.dropWhile p := by
  cases h : l.dropWhile p with
  | nil => rfl
  | cons c cs =>
    rw [List.dropWhile_cons, dropWhile_head_not p l c cs h]
    simp

theorem stripL_decomp (l : List Char) :
    l = l.takeWhile isPySpace ++
      (stripL l ++ ((l.dropWhile isPySpace).reverse.takeWhile isPySpace).reverse) := by
  have h1 : stripL l ++ ((l.dropWhile isPySpace).reverse.takeWhile isPySpace).reverse
      = l.dropWhile isPySpace := by
    unfold stripL
    rw [← List.reverse_append, List.takeWhile_append_dropWhile, List.reverse_reverse]
  rw [h1, List.takeWhile_append_dropWhile]

theorem stripL_idem (l : List Char) : stripL (stripL l) = stripL l := by
  have hBrev : (stripL l).reverse = (l.dropWhile isPySpace).reverse.dropWhile isPySpace := by
    unfold stripL
    rw [List.reverse_reverse]
  have hpre : stripL l ++ ((l.dropWhile isPySpace).reverse.takeWhile isPySpace).reverse
      = l.dropWhile isPySpace := by
    unfold stripL
    rw [← List.reverse_append, List.takeWhile_append_dropWhile, List.reverse_reverse]
  have hBA : (stripL l).dropWhile isPySpace = stripL l := by
    cases hB : stripL l with
    | nil => rfl
    | cons c cs =>
      have hA : l.dropWhile isPySpace =
          c :: (cs ++ ((l.dropWhile isPySpace).reverse.takeWhile isPySpace).reverse) := by
        conv_lhs => rw [← hpre]
        rw [hB]
        simp
      have hc : isPySpace c = false := dropWhile_head_not isPySpace l c _ hA
      rw [List.dropWhile_cons, hc]
      simp
  have hstep : stripL (stripL l) =
      (((stripL l).dropWhile isPySpace).reverse.dropWhile isPySpace).reverse := rfl
  rw [hstep, hBA, hBrev, dropWhile_idem, ← hBrev, List.reverse_reverse]

theorem delim_not_space (d : Char) (hd : isSentDelim d = true) : isPySpace d = false := by
  unfold isSentDelim at hd
  simp only [Bool.or_eq_true, beq_iff_eq] at hd
  rcases hd with ((((((h | h) | h) | h) | h) | h) | h) <;> subst h <;> decide

theorem endsWithDelim_stripL (r : List Char) (h : EndsWithDelim r) :
    EndsWithDelim (stripL r) := by
  obtain ⟨p0, d, hd, rfl⟩ := h
  have hAne : (p0 ++ [d]).dropWhile isPySpace ≠ [] := by
    intro hnil
    have hall := List.dropWhile_eq_nil_iff.mp hnil
    have hds := hall d (by simp)
    rw [delim_not_space d hd] at hds
    exact Bool.false_ne_true hds
  obtain ⟨t, ht⟩ :=
    (List.dropWhile_suffix isPySpace : (p0 ++ [d]).dropWhile isPySpace <:+ p0 ++ [d])
  have hlast : ((p0 ++ [d]).dropWhile isPySpace).getLast? = some d := by
    have h1 : (t ++ (p0 ++ [d]).dropWhile isPySpace).getLast? = some d := by
      rw [ht]
      exact List.getLast?_concat _
    rwa [List.getLast?_append_of_ne_nil t hAne] at h1
  have hsplit : ((p0 ++ [d]).dropWhile isPySpace).dropLast ++ [d] =
      (p0 ++ [d]).dropWhile isPySpace :=
    List.dropLast_append_getLast? d hlast
  refine ⟨((p0 ++ [d]).dropWhile isPySpace).dropLast, d, hd, ?_⟩
  have hstep : stripL (p0 ++ [d]) =
      ((((p0 ++ [d]).dropWhile isPySpace).dropLast ++ [d]).reverse.dropWhile isPySpace).reverse := by
    unfold stripL
    rw [hsplit]
  rw [hstep, List.reverse_concat, List.dropWhile_cons, delim_not_space d hd]
  simp

theorem noInnerDelim_stripL (r : List Char) (h : NoInnerDelim r) :
    NoInnerDelim (stripL r) := by
  intro ch hch
  have hne : stripL r ≠ [] := by
    intro h0
    rw [h0] at hch
    simp at hch
  apply h
  have hdec := stripL_decomp r
  by_cases hsuf : ((r.dropWhile isPySpace).reverse.takeWhile isPySpace).reverse = []
  · rw [hsuf, List.append_nil] at hdec
    rw [hdec, List.dropLast_append_of_ne_nil _ hne]
    exact List.mem_append.mpr (Or.inr hch)
  · have hmid : stripL r ++ ((r.dropWhile isPySpace).reverse.takeWhile isPySpace).reverse ≠ [] := by
      intro h0
      exact hsuf (List.append_eq_nil.mp h0).2
    rw [hdec, List.dropLast_append_of_ne_nil _ hmid, List.dropLast_append_of_ne_nil _ hsuf]
    exact List.mem_append.mpr (Or.inr (List.mem_append.mpr
      (Or.inl (List.mem_of_mem_dropLast hch))))

theorem altParts_splitKDAux :
    ∀ (l acc : List Char), (∀ ch ∈ acc, isSentDelim ch = false) →
      AltParts (splitKDAux acc l) := by
  intro l
  induction l with
  | nil =>
    intro acc hacc
    exact AltParts.single acc.reverse (fun ch hch => hacc ch (List.mem_reverse.mp hch))
  | cons c rest ih =>
    intro acc hacc
    simp only [splitKDAux]
    by_cases hc : isSentDelim c = true
    · rw [if_pos hc]
      exact AltParts.step acc.reverse c _ (fun ch hch => hacc ch (List.mem_reverse.mp hch)) hc
        (ih [] (fun ch hch => absurd hch (List.not_mem_nil ch)))
    · rw [if_neg hc]
      apply ih
      intro ch hch
      rcases List.mem_cons.mp hch with rfl | hch'
      · exact Bool.eq_false_iff.mpr hc
      · exact hacc ch hch'

theorem recombineSent_ne_nil : ∀ parts, AltParts parts → recombineSent parts ≠ [] := by
  intro parts h
  induction h with
  | single p hp => simp [recombineSent]
  | step p d rest hp hd hrest ih =>
    have hred : recombineSent (p :: [d] :: rest) = (p ++ [d]) :: recombineSent rest := by
      simp only [recombineSent]
      rw [if_pos hd]
    rw [hred]
    simp

theorem recombineSent_ok : ∀ parts, AltParts parts →
    (∀ r ∈ recombineSent parts, NoInnerDelim r) ∧
    (∀ r ∈ (recombineSent parts).dropLast, EndsWithDelim r) := by
  intro parts h
  induction h with
  | single p hp =>
    constructor
    · intro r hr
      rcases List.mem_singleton.mp (by simpa [recombineSent] using hr) with rfl
      intro ch hch
      exact hp ch (List.mem_of_mem_dropLast hch)
    · intro r hr
      simp [recombineSent] at hr
  | step p d rest hp hd hrest ih =>
    have hred : recombineSent (p :: [d] :: rest) = (p ++ [d]) :: recombineSent rest := by
      simp only [recombineSent]
      rw [if_pos hd]
    constructor
    · intro r hr
      rw [hred] at hr
      rcases List.mem_cons.mp hr with rfl | hr'
      · intro ch hch
        rw [List.dropLast_concat] at hch
        exact hp ch hch
      · exact ih.1 r hr'
    · intro r hr
      rw [hred, List.dropLast_cons_of_ne_nil (recombineSent_ne_nil rest hrest)] at hr
      rcases List.mem_cons.mp hr with rfl | hr'
      · exact ⟨p, d, hd, rfl⟩
      · exact ih.2 r hr'

theorem dropLast_filter_mem (q : List Char → Bool) :
    ∀ (rs : List (List Char)) (s : List Char),
      s ∈ (rs.filter q).dropLast → s ∈ rs.dropLast := by
  intro rs
  induction rs with
  | nil => intro s hs; simp at hs
  | cons c rest ih =>
    intro s hs
    rw [List.filter_cons] at hs
    by_cases hq : q c = true
    · rw [if_pos hq] at hs
      cases hrest : rest.filter q with
      | nil =>
        rw [hrest] at hs
        simp at hs
      | cons a t =>
        have hrne : rest ≠ [] := by
          intro h0
          rw [h0] at hrest
          simp at hrest
        rw [hrest, List.dropLast_cons_of_ne_nil (by simp)] at hs
        rw [List.dropLast_cons_of_ne_nil hrne]
        rcases List.mem_cons.mp hs with rfl | hs'
        · exact List.mem_cons_self s rest.dropLast
        · have h2 := ih s (by rw [hrest]; exact hs')
          exact List.mem_cons_of_mem c h2
    · rw [if_neg hq] at hs
      have h1 := ih s hs
      have hrne : rest ≠ [] := by
        intro h0
        rw [h0] at h1
        simp at h1
      rw [List.dropLast_cons_of_ne_nil hrne]
      exact List.mem_cons_of_mem c h1

theorem sentencesOf_isSentence (l : List Char) :
    ∀ s ∈ sentencesOf l, IsSentence s := by
  intro s hs
  unfold sentencesOf at hs
  have hmem := List.mem_of_mem_filter hs
  have hne : s ≠ [] := by simpa using List.of_mem_filter hs
  rcases List.mem_map.mp hmem with ⟨r, hr, rfl⟩
  have hok := recombineSent_ok (splitKDAux [] l)
    (altParts_splitKDAux l [] (fun ch hch => absurd hch (List.not_mem_nil ch)))
  exact ⟨hne, stripL_idem r, noInnerDelim_stripL r (hok.1 r hr)⟩

theorem sentencesOf_dropLast_delim (l : List Char) :
    ∀ s ∈ (sentencesOf l).dropLast, EndsWithDelim s := by
  intro s hs
  unfold sentencesOf at hs
  have hs2 : s ∈ ((recombineSent (splitKDAux [] l)).map stripL).dropLast :=
    dropLast_filter_mem _ _ s hs
  rw [← List.map_dropLast] at hs2
  rcases List.mem_map.mp hs2 with ⟨r, hr, rfl⟩
  have hok := recombineSent_ok (splitKDAux [] l)
    (altParts_splitKDAux l [] (fun ch hch => absurd hch (List.not_mem_nil ch)))
  exact endsWithDelim_stripL r (hok.2 r hr)

theorem sentInvS_weaken (S : ℕ) (st : PackState) (h : SentInvS S st) : SentInvW S st := by
  obtain ⟨hchunks, hcur⟩ := h
  refine ⟨hchunks, ?_⟩
  rcases hcur with h0 | ⟨ss, hss, hcureq, hszeq, hsent, hdelim, hdisj⟩
  · exact Or.inl h0
  · exact Or.inr ⟨ss, hss, hcureq, hszeq, hsent,
      fun s hs => hdelim s (List.mem_of_mem_dropLast hs), hdisj⟩

theorem cur_emit_sent (S : ℕ) (st : PackState) (h : SentInvW S st) :
    ∀ c ∈ (if st.cur ≠ [] then [stripL st.cur] else []), SentPack S c ∨ BigSent S c := by
  intro c hc
  by_cases hne : st.cur ≠ []
  · rw [if_pos hne] at hc
    rcases List.mem_singleton.mp hc with rfl
    rcases h.2 with ⟨hnil, _⟩ | ⟨ss, hss, hcureq, _, hsent, hdelim, hdisj⟩
    · exact absurd hnil hne
    · rcases hdisj with hle | ⟨s0, rfl, hbig⟩
      · exact Or.inl ⟨ss, hss, by rw [hcureq], hsent, hdelim, hle⟩
      · have hs0 : IsSentence s0 := hsent s0 (by simp)
        have hcur2 : st.cur = s0 := by rw [hcureq]; simp
        refine Or.inr ⟨?_, ?_⟩
        · rw [hcur2, hs0.2.1]
          exact hbig
        · rw [hcur2, hs0.2.1]
          exact hs0
  · rw [if_neg hne] at hc
    cases hc

theorem stepSent_invS (S : ℕ) (st : PackState) (s : List Char) (h : SentInvS S st)
    (hsen : IsSentence s) (hdel : EndsWithDelim s) :
    SentInvS S (stepSent S st s) := by
  obtain ⟨hchunks, hcur⟩ := h
  unfold stepSent
  by_cases hb : S < st.curSize + countChars s
  · rw [if_pos hb]
    constructor
    · intro c hc
      rcases List.mem_append.mp hc with hc' | hc'
      · exact hchunks c hc'
      · exact cur_emit_sent S st (sentInvS_weaken S st ⟨hchunks, hcur⟩) c hc'
    · right
      refine ⟨[s], by simp, by simp, by simp, ?_, ?_, ?_⟩
      · intro x hx
        rcases List.mem_singleton.mp hx with rfl
        exact hsen
      · intro x hx
        rcases List.mem_singleton.mp hx with rfl
        exact hdel
      · rcases lt_or_ge S (countChars s) with hlt | hge
        · exact Or.inr ⟨s, rfl, hlt⟩
        · left
          simpa using hge
  · rw [if_neg hb]
    push_neg at hb
    refine ⟨hchunks, Or.inr ?_⟩
    by_cases hne : st.cur = []
    · rw [if_pos hne]
      have hsz : st.curSize = 0 := by
        rcases hcur with ⟨_, h0⟩ | ⟨ss, _, hcureq, hszeq, _, _, _⟩
        · exact h0
        · rw [hszeq]
          exact flatten_eq_nil_sum ss (by rw [← hcureq]; exact hne)
      refine ⟨[s], by simp, by simp, by simp [hsz], ?_, ?_, Or.inl ?_⟩
      · intro x hx
        rcases List.mem_singleton.mp hx with rfl
        exact hsen
      · intro x hx
        rcases List.mem_singleton.mp hx with rfl
        exact hdel
      · simp only [List.map_cons, List.map_nil, List.sum_cons, List.sum_nil]
        omega
    · rw [if_neg hne]
      rcases hcur with ⟨hnil, _⟩ | ⟨ss, hss, hcureq, hszeq, hsents, hdelims, hdisj⟩
      · exact absurd hnil hne
      · have hle : (ss.map countChars).sum ≤ S := by
          rcases hdisj with hle | ⟨s0, rfl, hbig⟩
          · exact hle
          · exfalso
            simp only [List.map_cons, List.map_nil, List.sum_cons, List.sum_nil] at hszeq
            omega
        refine ⟨ss ++ [s], by simp, ?_, ?_, ?_, ?_, Or.inl ?_⟩
        · rw [hcureq]
          simp [List.flatten_append]
        · simp [hszeq]
        · intro x hx
          rcases List.mem_append.mp hx with hx' | hx'
          · exact hsents x hx'
          · rcases List.mem_singleton.mp hx' with rfl
            exact hsen
        · intro x hx
          rcases List.mem_append.mp hx with hx' | hx'
          · exact hdelims x hx'
          · rcases List.mem_singleton.mp hx' with rfl
            exact hdel
        · simp only [List.map_append, List.map_cons, List.map_nil, List.sum_append,
            List.sum_cons, List.sum_nil]
          omega

theorem stepSent_invW (S : ℕ) (st : PackState) (s : List Char) (h : SentInvS S st)
    (hsen : IsSentence s) :
    SentInvW S (stepSent S st s) := by
  obtain ⟨hchunks, hcur⟩ := h
  unfold stepSent
  by_cases hb : S < st.curSize + countChars s
  · rw [if_pos hb]
    constructor
    · intro c hc
      rcases List.mem_append.mp hc with hc' | hc'
      · exact hchunks c hc'
      · exact cur_emit_sent S st (sentInvS_weaken S st ⟨hchunks, hcur⟩) c hc'
    · right
      refine ⟨[s], by simp, by simp, by simp, ?_, ?_, ?_⟩
      · intro x hx
        rcases List.mem_singleton.mp hx with rfl
        exact hsen
      · intro x hx
        simp at hx
      · rcases lt_or_ge S (countChars s) with hlt | hge
        · exact Or.inr ⟨s, rfl, hlt⟩
        · left
          simpa using hge
  · rw [if_neg hb]
    push_neg at hb
    refine ⟨hchunks, Or.inr ?_⟩
    by_cases hne : st.cur = []
    · rw [if_pos hne]
      have hsz : st.curSize = 0 := by
        rcases hcur with ⟨_, h0⟩ | ⟨ss, _, hcureq, hszeq, _, _, _⟩
        · exact h0
        · rw [hszeq]
          exact flatten_eq_nil_sum ss (by rw [← hcureq]; exact hne)
      refine ⟨[s], by simp, by simp, by simp [hsz], ?_, ?_, Or.inl ?_⟩
      · intro x hx
        rcases List.mem_singleton.mp hx with rfl
        exact hsen
      · intro x hx
        simp at hx
      · simp only [List.map_cons, List.map_nil, List.sum_cons, List.sum_nil]
        omega
    · rw [if_neg hne]
      rcases hcur with ⟨hnil, _⟩ | ⟨ss, hss, hcureq, hszeq, hsents, hdelims, hdisj⟩
      · exact absurd hnil hne
      · have hle : (ss.map countChars).sum ≤ S := by
          rcases hdisj with hle | ⟨s0, rfl, hbig⟩
          · exact hle
          · exfalso
            simp only [List.map_cons, List.map_nil, List.sum_cons, List.sum_nil] at hszeq
            omega
        refine ⟨ss ++ [s], by simp, ?_, ?_, ?_, ?_, Or.inl ?_⟩
        · rw [hcureq]
          simp [List.flatten_append]
        · simp [hszeq]
        · intro x hx
          rcases List.mem_append.mp hx with hx' | hx'
          · exact hsents x hx'
          · rcases List.mem_singleton.mp hx' with rfl
            exact hsen
        · intro x hx
          rw [List.dropLast_concat] at hx
          exact hdelims x hx
        · simp only [List.map_append, List.map_cons, List.map_nil, List.sum_append,
            List.sum_cons, List.sum_nil]
          omega

theorem foldl_stepSent_invS (S : ℕ) :
    ∀ (l : List (List Char)) (st : PackState), SentInvS S st →
      (∀ s ∈ l, IsSentence s ∧ EndsWithDelim s) →
      SentInvS S (l.foldl (stepSent S) st) := by
  intro l
  induction l with
  | nil => intro st h _; exact h
  | cons s rest ih =>
    intro st h hl
    have hs := hl s (List.mem_cons_self s rest)
    exact ih (stepSent S st s) (stepSent_invS S st s h hs.1 hs.2)
      (fun x hx => hl x (List.mem_cons_of_mem s hx))

theorem splitBySentences_good (S : ℕ) (l : List Char) :
    ∀ c ∈ splitBySentences S l, SentPack S c ∨ BigSent S c := by
  intro c hc
  unfold splitBySentences finishPack at hc
  have hinit : SentInvS S ⟨[], [], 0⟩ :=
    ⟨fun c hc => absurd hc (List.not_mem_nil c), Or.inl ⟨rfl, rfl⟩⟩
  have hinv : SentInvW S ((sentencesOf l).foldl (stepSent S) ⟨[], [], 0⟩) := by
    by_cases hne : sentencesOf l = []
    · rw [hne]
      exact sentInvS_weaken S _ hinit
    · have hsplit := List.dropLast_append_getLast hne
      rw [← hsplit, List.foldl_append]
      simp only [List.foldl_cons, List.foldl_nil]
      apply stepSent_invW
      · apply foldl_stepSent_invS S _ _ hinit
        intro s hsd
        exact ⟨sentencesOf_isSentence l s (List.mem_of_mem_dropLast hsd),
          sentencesOf_dropLast_delim l s hsd⟩
      · exact sentencesOf_isSentence l _ (List.getLast_mem hne)
  rcases List.mem_append.mp hc with hc' | hc'
  · exact hinv.1 c hc'
  · exact cur_emit_sent S _ hinv c hc'

theorem cur_emit_para (S : ℕ) (st : PackState) (h : ParaInv S st) :
    ∀ c ∈ (if st.cur ≠ [] then [stripL st.cur] else []), GoodChunk S c := by
  intro c hc
  by_cases hne : st.cur ≠ []
  · rw [if_pos hne] at hc
    rcases List.mem_singleton.mp hc with rfl
    rcases h.2 with ⟨hnil, _⟩ | ⟨ps, hps, hcureq, _, hle⟩
    · exact absurd hnil hne
    · exact Or.inr (Or.inl ⟨ps, hps, by rw [hcureq], hle⟩)
  · rw [if_neg hne] at hc
    cases hc

theorem stepPara_inv (S : ℕ) (st : PackState) (p : List Char) (h : ParaInv S st) :
    ParaInv S (stepPara S st p) := by
  obtain ⟨hchunks, hcur⟩ := h
  unfold stepPara
  by_cases h0 : stripL p = []
  · rw [if_pos h0]
    exact ⟨hchunks, hcur⟩
  · rw [if_neg h0]
    by_cases h1 : S < countChars (stripL p)
    · rw [if_pos h1]
      refine ⟨?_, Or.inl ⟨rfl, rfl⟩⟩
      intro c hc
      rcases List.mem_append.mp hc with hc' | hc'
      · rcases List.mem_append.mp hc' with hc'' | hc''
        · exact hchunks c hc''
        · exact cur_emit_para S st ⟨hchunks, hcur⟩ c hc''
      · rcases splitBySentences_good S (stripL p) c hc' with hg | hg
        · exact Or.inr (Or.inr (Or.inl hg))
        · exact Or.inr (Or.inr (Or.inr hg))
    · rw [if_neg h1]
      push_neg at h1
      by_cases h2 : S < st.curSize + countChars (stripL p)
      · rw [if_pos h2]
        refine ⟨?_, Or.inr ⟨[stripL p], by simp, by simp [joinBlank], by simp, by simpa using h1⟩⟩
        intro c hc
        rcases List.mem_append.mp hc with hc' | hc'
        · exact hchunks c hc'
        · exact cur_emit_para S st ⟨hchunks, hcur⟩ c hc'
      · rw [if_neg h2]
        push_neg at h2
        refine ⟨hchunks, Or.inr ?_⟩
        by_cases hne : st.cur = []
        · rw [if_pos hne]
          have hsz : st.curSize = 0 := by
            rcases hcur with ⟨_, h0'⟩ | ⟨ps, _, hcureq, hszeq, _⟩
            · exact h0'
            · rw [hszeq]
              exact joinBlank_eq_nil_sum ps (by rw [← hcureq]; exact hne)
          refine ⟨[stripL p], by simp, by simp [joinBlank], by simp [hsz], by simpa using h1⟩
        · rw [if_neg hne]
          rcases hcur with ⟨hnil, _⟩ | ⟨ps, hps, hcureq, hszeq, hle⟩
          · exact absurd hnil hne
          · refine ⟨ps ++ [stripL p], by simp, ?_, ?_, ?_⟩
            · rw [hcureq, joinBlank_append_single ps (stripL p) hps]
            · simp [hszeq]
            · simp only [List.map_append, List.map_cons, List.map_nil, List.sum_append,
                List.sum_cons, List.sum_nil]
              omega

theorem foldl_stepPara_inv (S : ℕ) :
    ∀ (l : List (List Char)) (st : PackState), ParaInv S st →
      ParaInv S (l.foldl (stepPara S) st) := by
  intro l
  induction l with
  | nil => intro st h; exact h
  | cons p rest ih =>
    intro st h
    exact ih (stepPara S st p) (stepPara_inv S st p h)

theorem splitSection_good (S : ℕ) (l : List Char) :
    ∀ c ∈ splitSection S l, GoodChunk S c := by
  intro c hc
  unfold splitSection at hc
  by_cases hsz : countChars l ≤ S
  · rw [if_pos hsz] at hc
    rcases List.mem_singleton.mp hc with rfl
    exact Or.inl hsz
  · rw [if_neg hsz] at hc
    unfold finishPack at hc
    have hinv : ParaInv S ((splitNN l).foldl (stepPara S) ⟨[], [], 0⟩) :=
      foldl_stepPara_inv S (splitNN l) ⟨[], [], 0⟩
        ⟨fun c hc => absurd hc (List.not_mem_nil c), Or.inl ⟨rfl, rfl⟩⟩
    rcases List.mem_append.mp hc with hc' | hc'
    · exact hinv.1 c hc'
    · exact cur_emit_para S _ hinv c hc'

/-- Claim C3, amended: every chunk produced before the overlap pass (the
claim measures chunks with the prepended overlap marker text excluded)
either has visual size at most `S`, or is a blank-line join of stripped
paragraphs whose measured visual sizes sum to at most `S` (the inserted
separators and per-piece floor round-off are not measured, so the chunk's
own visual size can exceed `S`), or is a concatenation of sentence pieces
— each non-empty, stripped, with no internal sentence delimiter, and
every piece but the last ending in a delimiter — whose measured sizes sum
to at most `S`, or is itself a single such sentence piece of visual size
exceeding `S` (the unsplit edge case). -/
theorem C3_amended_size_bound (S : ℕ) (text : List Char) :
    ∀ c ∈ preChunks S text, GoodChunk S c := by
  intro c hc
  unfold preChunks at hc
  rcases List.mem_flatten.mp hc with ⟨cs, hcs, hccs⟩
  rcases List.mem_map.mp hcs with ⟨sec, _, rfl⟩
  exact splitSection_good S sec c hccs

theorem C3_amended_size_bound_witness :
    ("ef".toList ∈ preChunks 2 "ab\n\ncd\n\nef".toList) ∧
    GoodChunk 2 "ef".toList :=
  ⟨by decide, C3_amended_size_bound 2 "ab\n\ncd\n\nef".toList "ef".toList (by decide)⟩

/-- Claim C3 counterexample: with `target_size = 2` and `overlap = 0`, the
document "ab\n\ncd\n\nef" produces the chunk "ab\n\ncd" of visual size 3 > 2,
which is not a delimiter-free CJK run — the paragraph packer does not count
the blank-line separators it inserts. -/
theorem C3_counterexample_size_exceeded :
    "ab\n\ncd".toList ∈ splitIntoChunks 2 0 "ab\n\ncd\n\nef".toList ∧
    countChars "ab\n\ncd".toList = 3 ∧
    ¬(countChars "ab\n\ncd".toList ≤ 2 ∨ CJKRunException 2 "ab\n\ncd".toList) := by
  refine ⟨by decide, by decide, ?_⟩
  intro h
  rcases h with h | h
  · revert h
    decide
  · rcases h with ⟨-, -, hall, -⟩
    have := hall 'a' (by decide)
    revert this
    decide

/-! ## Claim C7: the overlap pass -/

theorem applyOverlap_length (ov : ℕ) (chunks : List (List Char)) :
    (applyOverlap ov chunks).length = chunks.length := by
  cases chunks with
  | nil => rfl
  | cons c0 rest =>
    simp [applyOverlap, List.length_zip]

theorem applyOverlap_getD (ov : ℕ) (chunks : List (List Char)) (i : ℕ)
    (h1 : 1 ≤ i) (h2 : i < chunks.length) :
    (applyOverlap ov chunks).getD i [] =
      (if getTailText ov (chunks.getD (i - 1) []) ≠ [] ∧
          ¬((getTailText ov (chunks.getD (i - 1) [])).take 20 <+: chunks.getD i []) then
        ellipsisMark (getTailText ov (chunks.getD (i - 1) [])) ++ chunks.getD i []
      else chunks.getD i []) := by
  cases chunks with
  | nil => simp at h2
  | cons c0 rest =>
    obtain ⟨j, rfl⟩ : ∃ j, i = j + 1 := ⟨i - 1, by omega⟩
    have hj : j < rest.length := by
      simp at h2
      omega
    simp only [applyOverlap, List.getD_cons_succ, Nat.add_sub_cancel]
    have hjz : j < (List.zip (c0 :: rest) rest).length := by
      rw [List.length_zip]
      simp
      omega
    have hjm : j < ((List.zip (c0 :: rest) rest).map (fun pr =>
        if getTailText ov pr.1 ≠ [] ∧ ¬((getTailText ov pr.1).take 20 <+: pr.2) then
          ellipsisMark (getTailText ov pr.1) ++ pr.2
        else pr.2)).length := by
      simpa using hjz
    rw [List.getD_eq_getElem _ _ hjm, List.getElem_map, List.getElem_zip]
    have hj1 : j < (c0 :: rest).length := by
      simp
      omega
    have e1 : (c0 :: rest)[j] = (c0 :: rest).getD j [] :=
      (List.getD_eq_getElem _ _ hj1).symm
    have e2 : rest[j] = (c0 :: rest).getD (j + 1) [] := by
      rw [List.getD_cons_succ]
      exact (List.getD_eq_getElem _ _ hj).symm
    simp only [e1, e2, List.getD_cons_succ]

/-- Claim C7: for every document whose chunking yields more than one chunk
and overlap > 0, each emitted chunk `res[i]` (i ≥ 1) either already starts
with the first 20 characters of the tail-overlap text computed from the
previous pre-overlap chunk, or begins with an ellipsis-marked copy of that
tail separated from the rest by a blank line. -/
theorem C7_overlap_marker (S ov : ℕ) (text : List Char) (hov : 0 < ov) (i : ℕ)
    (h1 : 1 ≤ i) (h2 : i < (splitIntoChunks S ov text).length) :
    ((getTailText ov ((preChunks S text).getD (i - 1) [])).take 20 <+:
        (splitIntoChunks S ov text).getD i []) ∨
    (ellipsisMark (getTailText ov ((preChunks S text).getD (i - 1) [])) <+:
        (splitIntoChunks S ov text).getD i []) := by
  unfold splitIntoChunks at h2 ⊢
  by_cases hs : stripL text = []
  · rw [if_pos hs] at h2
    simp at h2
  · rw [if_neg hs] at h2 ⊢
    by_cases hcond : 0 < ov ∧ 1 < (preChunks S text).length
    · rw [if_pos hcond] at h2 ⊢
      rw [applyOverlap_length] at h2
      rw [applyOverlap_getD ov (preChunks S text) i h1 h2]
      by_cases hmod : getTailText ov ((preChunks S text).getD (i - 1) []) ≠ [] ∧
          ¬((getTailText ov ((preChunks S text).getD (i - 1) [])).take 20 <+:
            (preChunks S text).getD i [])
      · rw [if_pos hmod]
        exact Or.inr (List.prefix_append _ _)
      · rw [if_neg hmod]
        left
        by_cases htail : getTailText ov ((preChunks S text).getD (i - 1) []) = []
        · rw [htail]
          simp
        · by_contra hP
          exact hmod ⟨htail, hP⟩
    · rw [if_neg hcond] at h2
      exfalso
      have hle : ¬(1 < (preChunks S text).length) := fun hgt => hcond ⟨hov, hgt⟩
      omega

theorem C7_overlap_marker_witness :
    0 < 3 ∧ 1 ≤ 1 ∧ 1 < (splitIntoChunks 5 3 "aaaaaaaaaa\n\nbbbbbbbbbb".toList).length ∧
    (((getTailText 3 ((preChunks 5 "aaaaaaaaaa\n\nbbbbbbbbbb".toList).getD 0 [])).take 20 <+:
        (splitIntoChunks 5 3 "aaaaaaaaaa\n\nbbbbbbbbbb".toList).getD 1 []) ∨
     (ellipsisMark (getTailText 3 ((preChunks 5 "aaaaaaaaaa\n\nbbbbbbbbbb".toList).getD 0 [])) <+:
        (splitIntoChunks 5 3 "aaaaaaaaaa\n\nbbbbbbbbbb".toList).getD 1 [])) :=
  ⟨by decide, by decide, by decide,
    C7_overlap_marker 5 3 "aaaaaaaaaa\n\nbbbbbbbbbb".toList (by decide) 1 (by decide) (by decide)⟩

/-! ## Claim C4: fallback to the lexical path -/

theorem search_take (chunks : List Chunk) (am : List (String × String)) (q : String)
    (gid : Option String) {k K : ℕ} (h : k ≤ K) :
    (search chunks am q K gid).take k = search chunks am q k gid := by
  unfold search
  by_cases hc : chunks = []
  · rw [if_pos hc, if_pos hc]
    simp
  · rw [if_neg hc, if_neg hc]
    by_cases ht : tokenizeL (applyAliases am q) = []
    · rw [if_pos ht, if_pos ht]
      simp
    · rw [if_neg ht, if_neg ht, List.take_take, Nat.min_eq_left h]

/-- Claim C4, amended: when the embedding provider's bulk or query embedding
call raises and no reranking provider is configured, `search_async` returns
exactly the results of the lexical `search` with the same query, `top_k` and
group id, and the failure is not surfaced.  (With a reranking provider
configured the failure is still swallowed, but the reranker sees a `3*top_k`
candidate pool instead of the lexical path's `2*top_k`, so the results can
differ — see the counterexample.) -/
theorem C4_embedding_failure_fallback (chunks : List Chunk) (am : List (String × String))
    (p : EmbeddingProvider) (q : String) (k : ℕ) (gid : Option String)
    (hfail : p.getEmbeddings (chunks.map (fun c => c.content)) = .error () ∨
      ∃ es, p.getEmbeddings (chunks.map (fun c => c.content)) = .ok es ∧
        p.getEmbedding (applyAliases am q) = .error ()) :
    searchAsync chunks am (some p) none q k gid = search chunks am q k gid := by
  have hsem : semanticSearch chunks am p q (3 * k) gid = search chunks am q (3 * k) gid := by
    unfold semanticSearch
    rcases hfail with herr | ⟨es, hok, herr⟩
    · rw [herr]
    · rw [hok]
      change (if es = [] then search chunks am q (3 * k) gid
        else match p.getEmbedding (applyAliases am q) with
          | Except.error _ => search chunks am q (3 * k) gid
          | Except.ok qe => (sortDesc (semScoreAllAux es qe
              (extractQueryTags (applyAliases am q)) gid 0 chunks)).take (3 * k)) = _
      by_cases hes : es = []
      · rw [if_pos hes]
      · rw [if_neg hes, herr]
  have hcand : asyncCandidates chunks am (some p) none q k gid =
      search chunks am q (3 * k) gid := by
    unfold asyncCandidates
    exact hsem
  by_cases hc : chunks = []
  · unfold searchAsync
    rw [if_pos hc]
    subst hc
    unfold search
    rw [if_pos rfl]
  · have hres : searchAsync chunks am (some p) none q k gid =
        (search chunks am q (3 * k) gid).take k := by
      unfold searchAsync
      rw [if_neg hc]
      by_cases he : (asyncCandidates chunks am (some p) none q k gid).isEmpty
      · rw [if_pos he]
        rw [hcand] at he
        rw [List.isEmpty_iff.mp he]
        simp
      · rw [if_neg he]
        rw [hcand]
    rw [hres, search_take chunks am q gid (by omega)]

theorem C4_embedding_failure_fallback_witness :
    (c4FailEmb.getEmbeddings ((([⟨"a", [], none, none⟩] : List Chunk)).map
        (fun c => c.content)) = .error () ∨
      ∃ es, c4FailEmb.getEmbeddings ((([⟨"a", [], none, none⟩] : List Chunk)).map
          (fun c => c.content)) = .ok es ∧
        c4FailEmb.getEmbedding (applyAliases [] "a") = .error ()) ∧
    searchAsync [⟨"a", [], none, none⟩] [] (some c4FailEmb) none "a" 6 none =
      search [⟨"a", [], none, none⟩] [] "a" 6 none :=
  ⟨Or.inl rfl,
    C4_embedding_failure_fallback [⟨"a", [], none, none⟩] [] c4FailEmb "a" 6 none (Or.inl rfl)⟩

/-! ## Claim C4: counterexample evaluation -/

theorem bm25Score_eq_zero (chunks : List Chunk) (qTokens : List (List Char)) (c : Chunk)
    (h : ∀ t ∈ qTokens, docFreq chunks t = 0) : bm25Score chunks qTokens c = 0 := by
  unfold bm25Score
  apply List.sum_eq_zero
  intro x hx
  rcases List.mem_map.mp hx with ⟨t, ht, rfl⟩
  rw [if_pos (h t ht)]

theorem c4_tags : extractQueryTags (applyAliases [] "burn主线") = ["状态:Burn", "主线"] := by
  decide

theorem c4_score1 :
    totalScore c4Chunks (tokenizeL (applyAliases [] "burn主线"))
      (extractQueryTags (applyAliases [] "burn主线")) (some "g") c4Chunk1 = 3 := by
  unfold totalScore
  rw [bm25Score_eq_zero _ _ _ (by decide), c4_tags]
  have ht : tagScore ["状态:Burn", "主线"] c4Chunk1 = 3 := by
    unfold tagScore
    rw [show (["状态:Burn", "主线"].filter (fun t => decide (t ∈ c4Chunk1.tags))) =
        ["状态:Burn", "主线"] from by decide]
    rw [if_neg (by decide : ¬(["状态:Burn", "主线"] : List String) = [])]
    norm_num
  have hg : groupScore (some "g") c4Chunk1 = 0 := by
    show (if ("g" : String) ≠ "" ∧ c4Chunk1.scope = some "group" ∧
        c4Chunk1.groupId = some "g" then (1.2 : ℝ) else 0) = 0
    rw [if_neg]
    rintro ⟨-, h2, -⟩
    revert h2
    decide
  rw [ht, hg]
  norm_num

theorem c4_score2 :
    totalScore c4Chunks (tokenizeL (applyAliases [] "burn主线"))
      (extractQueryTags (applyAliases [] "burn主线")) (some "g") c4Chunk2 = 3 / 2 := by
  unfold totalScore
  rw [bm25Score_eq_zero _ _ _ (by decide), c4_tags]
  have ht : tagScore ["状态:Burn", "主线"] c4Chunk2 = 3 / 2 := by
    unfold tagScore
    rw [show (["状态:Burn", "主线"].filter (fun t => decide (t ∈ c4Chunk2.tags))) =
        ["状态:Burn"] from by decide]
    rw [if_neg (by decide : ¬(["状态:Burn"] : List String) = [])]
    norm_num
  have hg : groupScore (some "g") c4Chunk2 = 0 := by
    show (if ("g" : String) ≠ "" ∧ c4Chunk2.scope = some "group" ∧
        c4Chunk2.groupId = some "g" then (1.2 : ℝ) else 0) = 0
    rw [if_neg]
    rintro ⟨-, h2, -⟩
    revert h2
    decide
  rw [ht, hg]
  norm_num

theorem c4_score3 :
    totalScore c4Chunks (tokenizeL (applyAliases [] "burn主线"))
      (extractQueryTags (applyAliases [] "burn主线")) (some "g") c4Chunk3 = 6 / 5 := by
  unfold totalScore
  rw [bm25Score_eq_zero _ _ _ (by decide), c4_tags]
  have ht : tagScore ["状态:Burn", "主线"] c4Chunk3 = 0 := by
    unfold tagScore
    rw [show (["状态:Burn", "主线"].filter (fun t => decide (t ∈ c4Chunk3.tags))) =
        [] from by decide]
    rw [if_pos rfl]
  have hg : groupScore (some "g") c4Chunk3 = 1.2 := by
    show (if ("g" : String) ≠ "" ∧ c4Chunk3.scope = some "group" ∧
        c4Chunk3.groupId = some "g" then (1.2 : ℝ) else 0) = 1.2
    rw [if_pos ⟨by decide, rfl, rfl⟩]
  rw [ht, hg]
  norm_num

theorem c4_scoreAll :
    scoreAll c4Chunks (tokenizeL (applyAliases [] "burn主线"))
      (extractQueryTags (applyAliases [] "burn主线")) (some "g") =
    [⟨0, c4Chunk1, 3⟩, ⟨1, c4Chunk2, 3 / 2⟩, ⟨2, c4Chunk3, 6 / 5⟩] := by
  unfold scoreAll
  show scoreAllAux c4Chunks _ _ _ 0 [c4Chunk1, c4Chunk2, c4Chunk3] = _
  simp only [scoreAllAux]
  rw [c4_score1, c4_score2, c4_score3]
  rw [if_pos (by norm_num : (0 : ℝ) < 3), if_pos (by norm_num : (0 : ℝ) < 3 / 2),
    if_pos (by norm_num : (0 : ℝ) < 6 / 5)]
  rfl

theorem c4_sorted :
    sortDesc [⟨0, c4Chunk1, 3⟩, ⟨1, c4Chunk2, 3 / 2⟩, ⟨2, c4Chunk3, 6 / 5⟩] =
      [⟨0, c4Chunk1, 3⟩, ⟨1, c4Chunk2, 3 / 2⟩, ⟨2, c4Chunk3, 6 / 5⟩] := by
  unfold sortDesc
  simp only [List.foldl_cons, List.foldl_nil]
  norm_num [insertDesc]

theorem c4_search (k : ℕ) :
    search c4Chunks [] "burn主线" k (some "g") =
      ([⟨0, c4Chunk1, 3⟩, ⟨1, c4Chunk2, 3 / 2⟩, ⟨2, c4Chunk3, 6 / 5⟩] : List Scored).take k := by
  unfold search
  rw [if_neg (by decide : ¬c4Chunks = []),
    if_neg (by decide : ¬tokenizeL (applyAliases [] "burn主线") = []),
    c4_scoreAll, c4_sorted]

theorem c4_candidates_emb :
    asyncCandidates c4Chunks [] (some c4FailEmb) (some c4PickLast) "burn主线" 1 (some "g") =
      [⟨0, c4Chunk1, 3⟩, ⟨1, c4Chunk2, 3 / 2⟩, ⟨2, c4Chunk3, 6 / 5⟩] := by
  show semanticSearch c4Chunks [] c4FailEmb "burn主线" (3 * 1) (some "g") = _
  show search c4Chunks [] "burn主线" (3 * 1) (some "g") = _
  rw [c4_search]
  rfl

theorem c4_candidates_noemb :
    asyncCandidates c4Chunks [] none (some c4PickLast) "burn主线" 1 (some "g") =
      [⟨0, c4Chunk1, 3⟩, ⟨1, c4Chunk2, 3 / 2⟩] := by
  show search c4Chunks [] "burn主线"
    (if (some c4PickLast : Option RerankProvider).isSome then 2 * 1 else 1) (some "g") = _
  rw [show (if (some c4PickLast : Option RerankProvider).isSome then 2 * 1 else 1) = 2 from rfl]
  rw [c4_search]
  rfl

theorem c4_async_emb :
    searchAsync c4Chunks [] (some c4FailEmb) (some c4PickLast) "burn主线" 1 (some "g") =
      [⟨2, c4Chunk3, 1⟩] := by
  unfold searchAsync
  rw [c4_candidates_emb]
  rfl

theorem c4_async_noemb :
    searchAsync c4Chunks [] none (some c4PickLast) "burn主线" 1 (some "g") =
      [⟨1, c4Chunk2, 1⟩] := by
  unfold searchAsync
  rw [c4_candidates_noemb]
  rfl

/-- Claim C4 counterexample: with a reranking provider configured, a failing
embedding provider does not reproduce the lexical path.  The embedding
failure makes the reranker see 3·top_k candidates, while the lexical path
gives it 2·top_k (and the plain lexical `search` returns yet another
result), so the claimed equality fails even though the failure is
swallowed. -/
theorem C4_counterexample_rerank_divergence :
    c4FailEmb.getEmbeddings (c4Chunks.map (fun c => c.content)) = .error () ∧
    searchAsync c4Chunks [] (some c4FailEmb) (some c4PickLast) "burn主线" 1 (some "g") ≠
      search c4Chunks [] "burn主线" 1 (some "g") ∧
    searchAsync c4Chunks [] (some c4FailEmb) (some c4PickLast) "burn主线" 1 (some "g") ≠
      searchAsync c4Chunks [] none (some c4PickLast) "burn主线" 1 (some "g") := by
  refine ⟨rfl, ?_, ?_⟩
  · rw [c4_async_emb, c4_search,
      show ([⟨0, c4Chunk1, 3⟩, ⟨1, c4Chunk2, 3 / 2⟩, ⟨2, c4Chunk3, 6 / 5⟩] :
        List Scored).take 1 = [⟨0, c4Chunk1, 3⟩] from rfl]
    intro h
    simp [c4Chunk3, c4Chunk1] at h
  · rw [c4_async_emb, c4_async_noemb]
    intro h
    simp [c4Chunk3, c4Chunk2] at h

/-! ## Claim C9: tagging determinism, duplicate-freedom, idempotence -/

theorem nodup_foldl_dedupAppend :
    ∀ (l acc : List String), acc.Nodup → (l.foldl dedupAppend acc).Nodup := by
  intro l
  induction l with
  | nil => intro acc h; exact h
  | cons x rest ih =>
    intro acc h
    apply ih
    unfold dedupAppend
    by_cases hx : x ∈ acc
    · rw [if_pos hx]
      exact h
    · rw [if_neg hx]
      rw [List.nodup_append]
      refine ⟨h, List.nodup_singleton x, ?_⟩
      intro a ha hax
      rcases List.mem_singleton.mp hax with rfl
      exact hx ha

theorem nodup_foldl_dedupAppendNE :
    ∀ (l acc : List String), acc.Nodup → (l.foldl dedupAppendNE acc).Nodup := by
  intro l
  induction l with
  | nil => intro acc h; exact h
  | cons x rest ih =>
    intro acc h
    apply ih
    unfold dedupAppendNE
    by_cases hx : x ≠ "" ∧ x ∉ acc
    · rw [if_pos hx]
      rw [List.nodup_append]
      refine ⟨h, List.nodup_singleton x, ?_⟩
      intro a ha hax
      rcases List.mem_singleton.mp hax with rfl
      exact hx.2 ha
    · rw [if_neg hx]
      exact h

theorem nodup_ite_foldl (p : Prop) [Decidable p] (l : List String) :
    (if p then l.foldl dedupAppend [] else []).Nodup := by
  by_cases h : p
  · rw [if_pos h]
    exact nodup_foldl_dedupAppend l [] List.Pairwise.nil
  · rw [if_neg h]
    exact List.Pairwise.nil

/-- Claim C9: `tag_chunk` is a pure function of the chunk text (calling it
twice on identical text yields identical tags and entities by definition of
the model), each entity list it produces is duplicate-free (entries are
appended in first-seen order under an explicit membership guard), and
`process_chunks` is a total overwrite of `tags`/`entities` computed from the
unchanged `content`, hence applying it a second time changes nothing. -/
theorem C9_tagging_nodup_idempotent :
    (∀ text : String,
      (tagChunk text).2.statuses.Nodup ∧ (tagChunk text).2.modes.Nodup ∧
      (tagChunk text).2.identities.Nodup ∧ (tagChunk text).2.egos.Nodup ∧
      (tagChunk text).2.sinners.Nodup) ∧
    (∀ cs : List TagChunk, processChunks (processChunks cs) = processChunks cs) := by
  constructor
  · intro text
    refine ⟨?_, ?_, ?_, ?_, ?_⟩
    · exact nodup_foldl_dedupAppend _ [] List.Pairwise.nil
    · exact nodup_foldl_dedupAppend _ [] List.Pairwise.nil
    · exact nodup_foldl_dedupAppend _ [] List.Pairwise.nil
    · exact nodup_ite_foldl _ _
    · exact nodup_foldl_dedupAppendNE _ [] List.Pairwise.nil
  · intro cs
    unfold processChunks
    rw [List.map_map]
    apply List.map_congr_left
    intro c _
    rfl
